import Mathlib

/-!
Verification of the dependency-injection solver (`di/container/_solving.py`)
against its natural-language specification.

The Python data model is shallowly embedded: `DependantBase` objects form a
finite heap (`Graph.nodes`), and Python object identity is realised by the
node's index (a `Nat` id).  Dictionaries keyed by objects become association
lists keyed by ids; machine-level details (hashing) are irrelevant because the
source only relies on equality of keys.  Fallible Python code (raising) is
embedded with `Except`; the work-list loop of `solve` is written with explicit
fuel so that it is executable, together with a theorem that the chosen fuel
bound always suffices (this is the termination argument for the loop).

Components of the repository that are *not* under `src/` (the path helper
`di.container._utils.get_path`, the scope validator
`di.container._scope_validation.validate_scopes`, the `graphlib2`
topological sorter, and the execution engine) are modelled from the spec; each
such definition carries a doc comment starting with `Modelled from the spec:`.
-/

set_option maxHeartbeats 1000000

namespace DI

/-- Kind of a formal parameter (`inspect.Parameter.kind`).  The task compiler
only distinguishes `KEYWORD_ONLY` from every other kind, so two constructors
suffice. -/
inductive ParamKind where
  | positionalOrKeyword
  | keywordOnly
deriving DecidableEq, Repr

/-- An `inspect.Parameter`: name, kind, and whether a default value is
declared (`hasDefault = false` embeds `param.default is param.empty`). -/
structure Parameter where
  name : String
  kind : ParamKind
  hasDefault : Bool
deriving DecidableEq, Repr

/-- `di.api.dependencies.DependencyParameter`: an optional formal parameter
together with the dependency node it binds (a node id). -/
structure DependencyParameter where
  parameter : Option Parameter
  dependency : Nat
deriving DecidableEq, Repr

/-- `di.api.dependencies.DependantBase`: the underlying call (`none` when the
node is a pure marker; calls are identified by a numeric code), the declared
scope (`none` embeds Python `None`, the innermost scope), the cache
participation flag, the cache key, and the result of `get_dependencies()`. -/
structure Node where
  call : Option Nat
  scope : Option Nat
  use_cache : Bool
  cache_key : Nat
  deps : List DependencyParameter
deriving DecidableEq, Repr

instance : Inhabited Node := ⟨⟨none, none, true, 0, []⟩⟩

/-- The finite heap of declared nodes; a node id is an index into `nodes`. -/
structure Graph where
  nodes : List Node
deriving DecidableEq, Repr

def Graph.node (g : Graph) (i : Nat) : Node := g.nodes.getD i default

/-- A bind hook `(parameterDescriptor | None, node) -> node | None`, with
nodes passed and returned by id. -/
def BindHook := Option Parameter → Nat → Option Nat

/-- First-match association-list lookup: Python `dict.__getitem__` /
`dict.get` (each key occurs at most once in the dictionaries we build, and
`setA` keeps it that way). -/
def lookupA {κ α : Type} [DecidableEq κ] : List (κ × α) → κ → Option α
  | [], _ => none
  | (k', v) :: rest, k => if k' = k then some v else lookupA rest k

/-- Association-list update with Python `dict` semantics: an existing key
keeps its position and gets the new value, a new key is appended. -/
def setA {κ α : Type} [DecidableEq κ] : List (κ × α) → κ → α → List (κ × α)
  | [], k, v => [(k, v)]
  | (k', v') :: rest, k, v =>
    if k' = k then (k, v) :: rest else (k', v') :: setA rest k v

/-- A printable element of a diagnostic path.  Python dictionaries compare
keys by equality and a `DependantBase` (a `.node` element) never equals a
cache key (a `.key` element), so a `.key` can never hit the node-keyed
parent map. -/
inductive PathElem where
  | node (id : Nat)
  | key (k : Nat)
deriving DecidableEq, Repr

/-- Modelled from the spec: `di.container._utils.get_path` is not under
`src/`.  Per §4.2 the traversal records "a parent map for diagnostics" and
per §4.3 errors report a representative path "using the parent map", so the
helper is modelled as the walk of the parent map from the given element up to
a parentless ancestor, returned root-first.  Only a `.node` element can match
an entry of the node-keyed map. -/
def get_path_aux (parents : List (Nat × Nat)) : PathElem → List PathElem → Nat → List PathElem
  | cur, acc, 0 => cur :: acc
  | cur, acc, fuel + 1 =>
    match cur with
    | .key _ => cur :: acc
    | .node i =>
      match lookupA parents i with
      | none => cur :: acc
      | some p => get_path_aux parents (.node p) (cur :: acc) fuel

def get_path (parents : List (Nat × Nat)) (dep : PathElem) : List PathElem :=
  get_path_aux parents dep [] (parents.length + 1)

/-- The solve-time failures.  `wiring`, `solving`, `dependencyCycle` and
`scopeValidation` are the documented error kinds; `keyError` and
`assertionError` embed raw Python `KeyError` / `AssertionError`; `rawCycle`
embeds an uncaught `graphlib2.CycleError`; `outOfFuel` is the fuel artifact
of the embedding (proved unreachable for the chosen bounds). -/
inductive SolveErr where
  | wiring (paramName : String) (path : List PathElem)
  | solving (depScope otherScope : Option Nat) (path : List PathElem)
  | dependencyCycle (path : List PathElem)
  | scopeValidation (depId predId : Nat) (depScope predScope : Option Nat)
  | keyError (k : Nat)
  | assertionError
  | rawCycle (cycle : List Nat)
  | outOfFuel
deriving DecidableEq, Repr

/-- The bind-substitution loop run on one discovered parameter edge
(`for hook in binds: ...` inside `get_params`): every hook is consulted, a
non-`None` result replaces the current dependency, and later hooks see the
replaced dependency while the parameter descriptor stays the original one
(`param._replace(dependency=match)`). -/
def bindParam (binds : List BindHook) (param : DependencyParameter) : DependencyParameter :=
  binds.foldl
    (fun p hook =>
      match hook p.parameter p.dependency with
      | some m => { p with dependency := m }
      | none => p)
    param

/-- The bind-substitution loop run on the root (`solve` lines 27-31):
`hook(None, dependency)`, with a truthy (`some`) result rebinding
`dependency` before the next hook is consulted. -/
def applyRootBinds (binds : List BindHook) (dependency : Nat) : Nat :=
  binds.foldl
    (fun d hook =>
      match hook none d with
      | some m => m
      | none => d)
    dependency

/-- The wiring check of `get_params`: a parameter is rejected when it is
present, its (post-bind) dependency has no call, and no default value is
declared.  `findSome?` returns the first offending parameter, as the `for`
loop raises at the first violation. -/
def firstWiringViolation (g : Graph) (params : List DependencyParameter) : Option Parameter :=
  params.findSome? fun p =>
    match p.parameter with
    | some pp =>
      if (g.node p.dependency).call.isNone && !pp.hasDefault then some pp else none
    | none => none

/-- `get_params` of `solve`: copies the node's dependencies, applies the bind
hooks to every edge, and raises `WiringError` (with the offending parameter
name and the root path) at the first unsatisfiable required parameter. -/
def get_params (g : Graph) (binds : List BindHook) (parents : List (Nat × Nat))
    (depId : Nat) : Except SolveErr (List DependencyParameter) :=
  let params := (g.node depId).deps.map (bindParam binds)
  match firstWiringViolation g params with
  | some pp => .error (.wiring pp.name (get_path parents (.node depId)))
  | none => .ok params

/-- The mutable state of `solve`'s work-list traversal: the queue `q` (held
with the Python list's *end* first, since `list.pop()` pops from the end),
the `seen` set, and the four dictionaries. -/
structure SolveState where
  q : List Nat
  seen : List Nat
  dependants : List (Nat × Nat)
  param_graph : List (Nat × List DependencyParameter)
  dep_dag : List (Nat × List Nat)
  parents : List (Nat × Nat)
deriving DecidableEq, Repr

def insertSeen (seen : List Nat) (i : Nat) : List Nat :=
  if i ∈ seen then seen else seen ++ [i]

/-- The `while q:` loop of `solve` (lines 70-95), with explicit fuel.  Each
iteration pops a node, deduplicates it by cache key (raising `SolvingError`
on a scope conflict, silently skipping an exact duplicate), and otherwise
registers it, resolves its parameters through the bind hooks, records the
DAG/parent entries and pushes unseen dependencies. -/
def solveLoop (g : Graph) (binds : List BindHook) : Nat → SolveState → Except SolveErr SolveState
  | 0, _ => .error .outOfFuel
  | fuel + 1, st =>
    match st.q with
    | [] => .ok st
    | dep :: rest =>
      let seen := insertSeen st.seen dep
      let node := g.node dep
      match lookupA st.dependants node.cache_key with
      | some otherId =>
        if (g.node otherId).scope ≠ node.scope then
          .error (.solving node.scope (g.node otherId).scope (get_path st.parents (.node dep)))
        else
          solveLoop g binds fuel { st with q := rest, seen := seen }
      | none =>
        match get_params g binds st.parents dep with
        | .error e => .error e
        | .ok params =>
          let preds := params.map (·.dependency)
          let parents := preds.foldl (fun ps p => setA ps p dep) st.parents
          let q := params.foldl
            (fun acc p => if p.dependency ∈ seen then acc else p.dependency :: acc) rest
          solveLoop g binds fuel
            { q := q, seen := seen,
              dependants := st.dependants ++ [(node.cache_key, dep)],
              param_graph := st.param_graph ++ [(dep, params)],
              dep_dag := st.dep_dag ++ [(dep, preds)],
              parents := parents }

/-- Upper bound on the number of dependencies any reachable node declares. -/
def maxDeps (g : Graph) : Nat := g.nodes.foldl (fun m n => max m n.deps.length) 0

/-- Every cache key the traversal can ever register. -/
def keyUniverse (g : Graph) : Finset Nat :=
  insert (default : Node).cache_key (g.nodes.map (·.cache_key)).toFinset

/-- Fuel that provably suffices for `solveLoop` (see
`solveLoop_fuel_sufficient`). -/
def fuelBound (g : Graph) : Nat := (keyUniverse g).card * (maxDeps g + 1) + 2

/-- The computable subgraph (`solve` lines 96-102): nodes without a call are
dropped as dependants, and their edges are dropped as dependencies. -/
def computableParamGraph (g : Graph) (pg : List (Nat × List DependencyParameter)) :
    List (Nat × List DependencyParameter) :=
  (pg.filter fun e => (g.node e.1).call.isSome).map
    fun e => (e.1, e.2.filter fun p => (g.node p.dependency).call.isSome)

/-- The dictionary handed to the node-level `TopologicalSorter` (`solve`
lines 106-112): cache keys of computable dependants mapped to the cache keys
of their computable dependencies. -/
def nodeSorterGraph (g : Graph) (cpg : List (Nat × List DependencyParameter)) :
    List (Nat × List Nat) :=
  cpg.map fun e =>
    ((g.node e.1).cache_key, e.2.map fun p => (g.node p.dependency).cache_key)

def pushNew (l : List Nat) (x : Nat) : List Nat := if x ∈ l then l else l ++ [x]

/-- All nodes known to a sorter, in first-mention order (a node is mentioned
when it is added, and predecessors are created on first use). -/
def mentionOrder (graph : List (Nat × List Nat)) : List Nat :=
  graph.foldl (fun acc e => e.2.foldl pushNew (pushNew acc e.1)) []

/-- All recorded predecessors of `n` (with multiplicity), across every
`add` call. -/
def predsOf (graph : List (Nat × List Nat)) (n : Nat) : List Nat :=
  graph.foldr (fun e acc => if e.1 = n then e.2 ++ acc else acc) []

/-- Modelled from the spec: the cycle reported by the sorter on failure — a
walk from a stuck node through still-pending predecessors until a node
repeats; the repeated node (a member of a cycle) comes last, matching
`next(iter(reversed(e.args[1])))` picking a cycle member. -/
def findCycleAux (graph : List (Nat × List Nat)) (pending : List Nat) :
    Nat → Nat → List Nat → List Nat
  | 0, cur, acc => (cur :: acc).reverse
  | fuel + 1, cur, acc =>
    if cur ∈ acc then (cur :: acc).reverse
    else
      match (predsOf graph cur).find? (· ∈ pending) with
      | some p => findCycleAux graph pending fuel p (cur :: acc)
      | none => (cur :: acc).reverse

def findCycle (graph : List (Nat × List Nat)) (pending : List Nat) : List Nat :=
  match pending with
  | [] => []
  | p :: _ => findCycleAux graph pending (pending.length + 1) p []

inductive SortResult where
  | ok (order : List Nat)
  | cycle (cyc : List Nat)
  | out
deriving DecidableEq, Repr

/-- Modelled from the spec: `graphlib2.TopologicalSorter.static_order` is an
external collaborator (§4.3: "a total order such that every dependency
precedes every dependent", deterministic tie-break).  Kahn's algorithm in
generations: each round emits, in mention order, every pending node all of
whose predecessors are already emitted; if a round emits nothing while nodes
are pending, the graph has a cycle. -/
def kahnLoop (graph : List (Nat × List Nat)) :
    Nat → List Nat → List Nat → SortResult
  | 0, _, _ => .out
  | fuel + 1, pending, acc =>
    let batch := pending.filter fun n => (predsOf graph n).all (· ∈ acc)
    match batch with
    | [] => if pending.isEmpty then .ok acc else .cycle (findCycle graph pending)
    | _ :: _ => kahnLoop graph fuel (pending.filter (· ∉ batch)) (acc ++ batch)

def staticOrderK (graph : List (Nat × List Nat)) : SortResult :=
  kahnLoop graph ((mentionOrder graph).length + 1) (mentionOrder graph) []

/-- `di._utils.task.Task` (declared outside `src/`, constructed by
`build_tasks`): the compiled counterpart of a node.  Direct Python references
to dependency `Task` objects are realised as task ids (`task_id` is the
creation index). -/
structure Task where
  scope : Option Nat
  call : Nat
  use_cache : Bool
  cache_key : Nat
  dependant : Nat
  task_id : Nat
  positional_parameters : List Nat
  keyword_parameters : List (String × Nat)
deriving DecidableEq, Repr

instance : Inhabited Task := ⟨⟨none, 0, true, 0, 0, 0, [], []⟩⟩

/-- The parameter split inside `build_tasks` (lines 155-166): edges without a
parameter are skipped, keyword-only parameters go to the keyword dictionary
under the parameter name, every other parametered edge is appended to the
positional list; a missing dependency task is a `KeyError`. -/
def splitParams (g : Graph) (tasks : List (Nat × Task)) :
    List DependencyParameter → List Nat → List (String × Nat) →
    Except SolveErr (List Nat × List (String × Nat))
  | [], positional, keyword => .ok (positional, keyword)
  | param :: rest, positional, keyword =>
    match param.parameter with
    | none => splitParams g tasks rest positional keyword
    | some pp =>
      match lookupA tasks (g.node param.dependency).cache_key with
      | none => .error (.keyError (g.node param.dependency).cache_key)
      | some task =>
        if pp.kind = .keywordOnly then
          splitParams g tasks rest positional (setA keyword pp.name task.task_id)
        else
          splitParams g tasks rest (positional ++ [task.task_id]) keyword

/-- The predecessor lookups evaluated inside `ts.add(task, *(...))`
(line 180): every edge of `dag[dep]`, parametered or not, contributes its
dependency task. -/
def taskPreds (g : Graph) (tasks : List (Nat × Task)) :
    List DependencyParameter → Except SolveErr (List Nat)
  | [] => .ok []
  | param :: rest =>
    match lookupA tasks (g.node param.dependency).cache_key with
    | none => .error (.keyError (g.node param.dependency).cache_key)
    | some t =>
      match taskPreds g tasks rest with
      | .error e => .error e
      | .ok ps => .ok (t.task_id :: ps)

/-- `build_tasks` (lines 144-181).  The lazily-evaluated
`(dependants[key] for key in dep_topsort)` generator is embedded by resolving
each emitted cache key through `dependants` as it is consumed; `dag[dep]`
and the task lookups raise `KeyError` when missing, and
`assert dep.call is not None` raises `AssertionError`.  Returns the task
dictionary, the task heap in creation (`task_id`) order, and the recorded
`ts.add` calls. -/
def build_tasks (g : Graph) (dag : List (Nat × List DependencyParameter))
    (dependants : List (Nat × Nat)) :
    List Nat → Nat → List (Nat × Task) → List Task → List (Nat × List Nat) →
    Except SolveErr (List (Nat × Task) × List Task × List (Nat × List Nat))
  | [], _, tasks, heap, tsAdds => .ok (tasks, heap, tsAdds)
  | key :: restKeys, task_id, tasks, heap, tsAdds =>
    match lookupA dependants key with
    | none => .error (.keyError key)
    | some depId =>
      match lookupA dag depId with
      | none => .error (.keyError depId)
      | some params =>
        match splitParams g tasks params [] [] with
        | .error e => .error e
        | .ok (positional, keyword) =>
          match (g.node depId).call with
          | none => .error .assertionError
          | some c =>
            let task : Task :=
              ⟨(g.node depId).scope, c, (g.node depId).use_cache,
                (g.node depId).cache_key, depId, task_id, positional, keyword⟩
            let tasks' := setA tasks (g.node depId).cache_key task
            match taskPreds g tasks' params with
            | .error e => .error e
            | .ok preds =>
              build_tasks g dag dependants restKeys (task_id + 1)
                tasks' (heap ++ [task]) (tsAdds ++ [(task_id, preds)])

def scopeIdx (scopes : List (Option Nat)) (s : Option Nat) : Nat := scopes.indexOf s

/-- Modelled from the spec: `di.container._scope_validation.validate_scopes`
is not under `src/`.  §4.4: over the full dependency DAG and the declared
outer-to-inner scope ordering, every edge (dependent D, dependency P) must
satisfy `index(P.scope) ≤ index(D.scope)`; a violation raises a scope
validation error naming both nodes and their scopes. -/
def validate_scopes (g : Graph) (scopes : List (Option Nat))
    (dep_dag : List (Nat × List Nat)) : Except SolveErr Unit :=
  match dep_dag.findSome? (fun e => e.2.findSome? fun p =>
      if scopeIdx scopes (g.node e.1).scope < scopeIdx scopes (g.node p).scope
      then some (e.1, p) else none) with
  | some (d, p) => .error (.scopeValidation d p (g.node d).scope (g.node p).scope)
  | none => .ok ()

/-- `di.container._execution_planning.SolvedDependantCache` (declared outside
`src/`, constructed by `solve` lines 129-134).  `tasks` is the heap realising
the Python `Task` object references held by `root_task`, the sorter and the
static order. -/
structure SolvedDependantCache where
  root_task : Task
  topological_sorter : List (Nat × List Nat)
  static_order : List Nat
  empty_results : List (Option Nat)
  tasks : List Task
deriving DecidableEq, Repr

/-- `di.api.solved.SolvedDependant` as populated by `solve` (lines 136-140). -/
structure SolvedDependant where
  dependency : Nat
  dag : List (Nat × List DependencyParameter)
  container_cache : SolvedDependantCache
deriving DecidableEq, Repr

instance : Inhabited SolvedDependant := ⟨⟨0, [], ⟨default, [], [], [], []⟩⟩⟩

def lastOf (l : List Nat) : Nat := l.getLastD 0

/-- `solve` (lines 18-141): root bind substitution, the work-list traversal,
the computable-subgraph restriction, the node-level topological sort
(`CycleError` becomes `DependencyCycleError`, whose path is computed from the
*last element of the cycle list* — a cache key — through the node-keyed
parent map), task compilation, the task-level static order, the root-task
lookup, and scope validation, in source order. -/
def solve (g : Graph) (dependency : Nat) (scopes : List (Option Nat))
    (binds : List BindHook) : Except SolveErr SolvedDependant :=
  let dependency := applyRootBinds binds dependency
  match solveLoop g binds (fuelBound g) ⟨[dependency], [], [], [], [], []⟩ with
  | .error e => .error e
  | .ok st =>
    let cpg := computableParamGraph g st.param_graph
    match staticOrderK (nodeSorterGraph g cpg) with
    | .out => .error .outOfFuel
    | .cycle cyc =>
      .error (.dependencyCycle (get_path st.parents (.key (lastOf cyc))))
    | .ok dep_topsort =>
      match build_tasks g cpg st.dependants dep_topsort 0 [] [] [] with
      | .error e => .error e
      | .ok (tasks, heap, tsAdds) =>
        match staticOrderK tsAdds with
        | .out => .error .outOfFuel
        | .cycle cyc => .error (.rawCycle cyc)
        | .ok static_order =>
          match lookupA tasks (g.node dependency).cache_key with
          | none => .error (.keyError (g.node dependency).cache_key)
          | some root_task =>
            match validate_scopes g scopes st.dep_dag with
            | .error e => .error e
            | .ok _ =>
              .ok ⟨dependency, st.param_graph,
                ⟨root_task, tsAdds, static_order,
                  List.replicate tasks.length none, heap⟩⟩

/-! ## Execution engine

The execution engine (`Container.execute_sync`, scope stacks, per-scope
caches) is not under `src/`; only its behaviour is fixed, by the test file
`src/tests/test_caching_rules.py` and §4.6 of the spec.  The definitions
below are modelled from the spec. -/

/-- Runtime values.  The counter dependency of the caching tests returns an
integer and the test root returns the *set* of its two arguments, so values
are finite sets of naturals (integers embedded as singletons). -/
abbrev Value := Finset Nat

/-- One scope instance's cache: cache key to computed value. -/
abbrev Cache := List (Nat × Value)

/-- The open scope instances, outermost first, each owning a cache. -/
abbrev ScopeCaches := List (Option Nat × Cache)

/-- Semantics of the underlying calls: call code, positional argument
values, keyword argument values, and a "world" state (the counter of the
test's generator), returning the value and the next world. -/
abbrev CallSem := Nat → List Value → List (String × Value) → Nat → Value × Nat

structure ExecState where
  world : Nat
  caches : ScopeCaches
  results : List (Nat × Value)

/-- Modelled from the spec (§4.6, steps 1-2): executing one task against the
open scope stack — find the owning cache by the task's declared scope (a
closed scope is a fatal error, `none`); reuse the cached value when
`use_cache` holds and the cache key is present; otherwise invoke the call on
the dependency tasks' recorded results and, when `use_cache` holds, store
the result in the owning cache. -/
def execTask (heap : List Task) (callSem : CallSem) (st : ExecState) (tid : Nat) :
    Option ExecState :=
  let task := heap.getD tid default
  match lookupA st.caches task.scope with
  | none => none
  | some owning =>
    match (if task.use_cache then lookupA owning task.cache_key else none) with
    | some v => some { st with results := st.results ++ [(task.task_id, v)] }
    | none => do
      let pos ← task.positional_parameters.mapM fun d => lookupA st.results d
      let kw ← task.keyword_parameters.mapM fun e =>
        (lookupA st.results e.2).map fun v => (e.1, v)
      let (v, world) := callSem task.call pos kw st.world
      let caches :=
        if task.use_cache
        then setA st.caches task.scope (setA owning task.cache_key v)
        else st.caches
      some { world := world, caches := caches,
             results := st.results ++ [(task.task_id, v)] }

/-- Modelled from the spec (§4.6): sequential execution walks the
precomputed static order once, in order; the root task's stored result is
the plan's output. -/
def executeSequential (plan : SolvedDependant) (callSem : CallSem)
    (caches : ScopeCaches) (world : Nat) : Option (Value × Nat × ScopeCaches) := do
  let final ← plan.container_cache.static_order.foldlM
    (execTask plan.container_cache.tasks callSem) ⟨world, caches, []⟩
  let v ← lookupA final.results plan.container_cache.root_task.task_id
  some (v, final.world, final.caches)

/-- The generator-backed calls of `test_cache_rules_multiple_deps`: call
code 1 is `dep` (returns the counter and increments it), call code 0 is
`root_dep` (returns the set of its two positional arguments). -/
def counterSem : CallSem := fun code pos _ world =>
  if code = 1 then ({world}, world + 1)
  else (pos.foldl (fun a b => a ∪ b) ∅, world)

/-- The scenario of `test_cache_rules_multiple_deps`: solve the root,
execute it in a fresh inner (`none`) scope instance inside one shared outer
(`some 0`) scope instance, then execute again in a second fresh inner scope
instance with the outer cache carried over. -/
def scenarioRun (g : Graph) : Option (Value × Value) := do
  let plan ← (solve g 0 [some 0, none] []).toOption
  let (v1, world1, caches1) ← executeSequential plan counterSem
    [(some 0, []), (none, [])] 0
  let outer := (lookupA caches1 (some 0)).getD []
  let (v2, _, _) ← executeSequential plan counterSem
    [(some 0, outer), (none, [])] world1
  some (v1, v2)

/-- `root_dep(v1, v2)` with both uses `use_cache=True, scope="scope"`: two
`Dependant` wrappers of the same `dep` function share the cache key (node
ids 1 and 2, cache key 1). -/
def gBothCached : Graph := ⟨[
  ⟨some 0, none, true, 0,
    [⟨some ⟨"v1", .positionalOrKeyword, false⟩, 1⟩,
     ⟨some ⟨"v2", .positionalOrKeyword, false⟩, 2⟩]⟩,
  ⟨some 1, some 0, true, 1, []⟩,
  ⟨some 1, some 0, true, 1, []⟩]⟩

/-- Same root, but `v1` declares `use_cache=False` (its cache key is unique,
key 2) while `v2` keeps `use_cache=True` (key 1), both in the outer scope. -/
def gFirstUncached : Graph := ⟨[
  ⟨some 0, none, true, 0,
    [⟨some ⟨"v1", .positionalOrKeyword, false⟩, 1⟩,
     ⟨some ⟨"v2", .positionalOrKeyword, false⟩, 2⟩]⟩,
  ⟨some 1, some 0, false, 2, []⟩,
  ⟨some 1, some 0, true, 1, []⟩]⟩

/-! ## Statement-side definitions and concrete inputs -/

/-- The spec's §4.1 reading of bind resolution, for comparison with
`bindParam`: "the first non-null replacement wins and substitution stops for
that edge". -/
def firstMatchBind (binds : List BindHook) (p : DependencyParameter) : DependencyParameter :=
  match binds.findSome? (fun hook => hook p.parameter p.dependency) with
  | some m => { p with dependency := m }
  | none => p

/-- Recursive description of the positional sequence `splitParams` builds:
edges without a parameter and keyword-only edges contribute nothing, every
other parametered edge contributes its dependency task id in edge order
(`none` when a required task lookup fails). -/
def positionalSplit (g : Graph) (tasks : List (Nat × Task)) :
    List DependencyParameter → Option (List Nat)
  | [] => some []
  | p :: rest =>
    match p.parameter with
    | none => positionalSplit g tasks rest
    | some pp =>
      match lookupA tasks (g.node p.dependency).cache_key with
      | none => none
      | some t =>
        if pp.kind = .keywordOnly then positionalSplit g tasks rest
        else (positionalSplit g tasks rest).map (t.task_id :: ·)

/-- Recursive description of the keyword mapping `splitParams` builds: each
keyword-only edge, in edge order, assigns its dependency task id under its
parameter name with Python-dict semantics (a later same-named assignment
overwrites the value in place); parameter-less and non-keyword-only edges
assign nothing (`none` when a required task lookup fails). -/
def keywordSplit (g : Graph) (tasks : List (Nat × Task)) :
    List DependencyParameter → List (String × Nat) → Option (List (String × Nat))
  | [], acc => some acc
  | p :: rest, acc =>
    match p.parameter with
    | none => keywordSplit g tasks rest acc
    | some pp =>
      match lookupA tasks (g.node p.dependency).cache_key with
      | none => none
      | some t =>
        if pp.kind = .keywordOnly then
          keywordSplit g tasks rest (setA acc pp.name t.task_id)
        else keywordSplit g tasks rest acc

/-- A one-entry task table: cache key 1 resolves to a task with id 0. -/
def tasksC6 : List (Nat × Task) := [(1, ⟨none, 1, true, 1, 1, 0, [], []⟩)]

/-- A single keyword-only edge named `k` to node 1. -/
def paramsC6 : List DependencyParameter := [⟨some ⟨"k", ParamKind.keywordOnly, false⟩, 1⟩]

def planOf (r : Except SolveErr SolvedDependant) : SolvedDependant :=
  r.toOption.getD default

/-- Always-substituting bind hooks used to separate "first match wins" from
the chained application the code performs. -/
def hookOne : BindHook := fun _ _ => some 1

def hookTwo : BindHook := fun _ _ => some 2

def pExample : DependencyParameter := ⟨some ⟨"x", .positionalOrKeyword, false⟩, 0⟩

/-- Root whose single dependency edge carries *no* parameter descriptor
(a purely structural edge) to a computable node. -/
def cgAbsentParam : Graph := ⟨[
  ⟨some 0, none, true, 0, [⟨none, 1⟩]⟩,
  ⟨some 1, none, true, 1, []⟩]⟩

/-- Root (outside the cycle) whose dependency chain enters the two-cycle
`A (key 1) → B (key 2) → A`. -/
def cgCycle : Graph := ⟨[
  ⟨some 10, none, true, 0, [⟨none, 1⟩]⟩,
  ⟨some 11, none, true, 1, [⟨none, 2⟩]⟩,
  ⟨some 12, none, true, 2, [⟨none, 1⟩]⟩]⟩

/-- Acyclic graph whose root has a required parameter bound to a call-less
node: solving raises `WiringError`, so no task table is built. -/
def cgWire : Graph := ⟨[
  ⟨some 0, none, true, 0, [⟨some ⟨"x", .positionalOrKeyword, false⟩, 1⟩]⟩,
  ⟨none, none, true, 1, []⟩]⟩

/-- A two-node chain `root → leaf` with a positional parameter. -/
def cgChain : Graph := ⟨[
  ⟨some 0, none, true, 0, [⟨some ⟨"a", .positionalOrKeyword, false⟩, 1⟩]⟩,
  ⟨some 1, none, true, 1, []⟩]⟩

/-- A single call-less root with no dependencies. -/
def cgMarkerRoot : Graph := ⟨[⟨none, none, true, 0, []⟩]⟩

/-- A call-less root whose required parameter is also unsatisfiable: the
traversal raises a (documented) `WiringError` before the root-task lookup is
reached. -/
def cgMarkerRootWire : Graph := ⟨[
  ⟨none, none, true, 0, [⟨some ⟨"x", .positionalOrKeyword, false⟩, 1⟩]⟩,
  ⟨none, none, true, 1, []⟩]⟩

/-- Three nodes sharing cache key 5: node 0 in the innermost scope, nodes 1
and 2 in scope 0. -/
def gC3 : Graph := ⟨[
  ⟨some 0, none, true, 5, []⟩,
  ⟨some 1, some 0, true, 5, []⟩,
  ⟨some 2, some 0, true, 5, []⟩]⟩

/-- Mid-traversal state: node 0 is about to be popped while cache key 5 is
already registered to node 1 (a scope conflict). -/
def stC3 : SolveState := ⟨[0], [], [(5, 1)], [], [], []⟩

/-- Mid-traversal state: node 2 is about to be popped while cache key 5 is
already registered to node 1 (same scope: an exact duplicate). -/
def stC3' : SolveState := ⟨[2], [], [(5, 1)], [], [], []⟩

/-- Two nodes for scope validation: node 0 in the innermost scope, node 1 in
scope 0 (so an edge `1 → 0` makes an outer-scoped node depend on an
inner-scoped one). -/
def gC8v : Graph := ⟨[
  ⟨some 0, none, true, 0, []⟩,
  ⟨some 1, some 0, true, 1, []⟩]⟩

/-- The cache keys still unregistered, measured against the finite key
universe: the termination measure of the traversal. -/
def missingKeys (g : Graph) (dds : List (Nat × Nat)) : Nat :=
  (keyUniverse g \ (dds.map Prod.fst).toFinset).card

/-- The dependency relation declared by a graph after bind substitution. -/
def depEdge (g : Graph) (binds : List BindHook) (i j : Nat) : Prop :=
  j ∈ (g.node i).deps.map fun p => (bindParam binds p).dependency

/-- A finished walk of the parent map: `ChainN parents d r n` says that
following `parents` upward from `d` reaches the parentless ancestor `r`
(the traversal root) in exactly `n` steps. -/
inductive ChainN (parents : List (Nat × Nat)) : Nat → Nat → Nat → Prop where
  | stop (r : Nat) : lookupA parents r = none → ChainN parents r r 0
  | up (d p r n : Nat) : lookupA parents d = some p → ChainN parents p r n →
      ChainN parents d r (n + 1)

/-! ## Helper lemmas -/

theorem mem_setA {κ α : Type} [DecidableEq κ] :
    ∀ (l : List (κ × α)) (k : κ) (v : α) (e : κ × α),
      e ∈ setA l k v → e ∈ l ∨ e = (k, v) := by
  intro l k v
  induction l with
  | nil => intro e he; right; simpa [setA] using he
  | cons hd tl ih =>
    obtain ⟨k', v'⟩ := hd
    intro e he
    by_cases h : k' = k
    · subst h
      rw [setA, if_pos rfl] at he
      rcases List.mem_cons.mp he with h1 | h1
      · exact .inr h1
      · exact .inl (List.mem_cons_of_mem _ h1)
    · rw [setA, if_neg h] at he
      rcases List.mem_cons.mp he with h1 | h1
      · exact .inl (h1 ▸ List.mem_cons_self _ _)
      · rcases ih e h1 with h2 | h2
        · exact .inl (List.mem_cons_of_mem _ h2)
        · exact .inr h2

theorem lookupA_eq_none {κ α : Type} [DecidableEq κ] :
    ∀ (l : List (κ × α)) (k : κ), lookupA l k = none ↔ k ∉ l.map Prod.fst := by
  intro l
  induction l with
  | nil => intro k; simp [lookupA]
  | cons hd tl ih =>
    intro k
    obtain ⟨k', v⟩ := hd
    by_cases h : k' = k
    · subst h
      simp [lookupA]
    · rw [lookupA, if_neg h]
      simp only [List.map_cons, List.mem_cons]
      rw [ih]
      constructor
      · intro h1 h2
        rcases h2 with h2 | h2
        · exact h (h2.symm)
        · exact h1 h2
      · intro h1 h2
        exact h1 (.inr h2)

theorem lookupA_some_mem {κ α : Type} [DecidableEq κ] :
    ∀ (l : List (κ × α)) (k : κ) (v : α), lookupA l k = some v → (k, v) ∈ l := by
  intro l
  induction l with
  | nil => intro k v h; cases h
  | cons hd tl ih =>
    intro k v h
    obtain ⟨k', v'⟩ := hd
    by_cases hk : k' = k
    · subst hk
      rw [lookupA, if_pos rfl] at h
      have : v' = v := by injection h
      subst this
      exact List.mem_cons_self _ _
    · rw [lookupA, if_neg hk] at h
      exact List.mem_cons_of_mem _ (ih k v h)

theorem lookupA_setA {κ α : Type} [DecidableEq κ] :
    ∀ (l : List (κ × α)) (k k' : κ) (v : α),
      lookupA (setA l k v) k' = if k = k' then some v else lookupA l k' := by
  intro l
  induction l with
  | nil =>
    intro k k' v
    by_cases h : k = k'
    · simp [setA, lookupA, h]
    · simp [setA, lookupA, h]
  | cons hd tl ih =>
    intro k k' v
    obtain ⟨a, b⟩ := hd
    by_cases hak : a = k
    · subst hak
      rw [setA, if_pos rfl]
      by_cases hk : a = k'
      · simp [lookupA, hk]
      · simp [lookupA, hk]
    · rw [setA, if_neg hak]
      by_cases hk : a = k'
      · subst hk
        have hkk : k ≠ a := fun hc => hak hc.symm
        simp [lookupA, hkk]
      · simp only [lookupA, if_neg hk]
        exact ih k k' v

theorem bindParam_cons (h : BindHook) (t : List BindHook) (p : DependencyParameter) :
    bindParam (h :: t) p = bindParam t
      (match h p.parameter p.dependency with
       | some m => { p with dependency := m }
       | none => p) := rfl

theorem bindParam_parameter (binds : List BindHook) :
    ∀ p : DependencyParameter, (bindParam binds p).parameter = p.parameter := by
  induction binds with
  | nil => intro p; rfl
  | cons h t ih =>
    intro p
    rw [bindParam_cons]
    rcases hm : h p.parameter p.dependency with _ | m <;> simp only [hm] <;> exact ih _

theorem splitParams_ok (g : Graph) (tasks : List (Nat × Task)) :
    ∀ (params : List DependencyParameter) (pos0 : List Nat) (kw0 : List (String × Nat))
      (pos : List Nat) (kw : List (String × Nat)),
      splitParams g tasks params pos0 kw0 = .ok (pos, kw) →
      (∃ tail, positionalSplit g tasks params = some tail ∧ pos = pos0 ++ tail) ∧
      (∀ e ∈ kw, e ∈ kw0 ∨ ∃ p ∈ params, ∃ pp, p.parameter = some pp ∧
        pp.kind = ParamKind.keywordOnly ∧ pp.name = e.1) := by
  intro params
  induction params with
  | nil =>
    intro pos0 kw0 pos kw h
    simp only [splitParams, Except.ok.injEq, Prod.mk.injEq] at h
    obtain ⟨h1, h2⟩ := h
    exact ⟨⟨[], rfl, by simp [← h1]⟩, fun e he => .inl (h2 ▸ he)⟩
  | cons p rest ih =>
    intro pos0 kw0 pos kw h
    rcases hp : p.parameter with _ | pp
    · rw [splitParams, hp] at h
      obtain ⟨⟨tail, ht1, ht2⟩, hkw⟩ := ih _ _ _ _ h
      refine ⟨⟨tail, ?_, ht2⟩, fun e he => ?_⟩
      · simpa [positionalSplit, hp] using ht1
      · rcases hkw e he with h1 | ⟨p', hp', rest'⟩
        · exact .inl h1
        · exact .inr ⟨p', List.mem_cons_of_mem _ hp', rest'⟩
    · rcases hl : lookupA tasks (g.node p.dependency).cache_key with _ | t
      · simp [splitParams, hp, hl] at h
      · by_cases hk : pp.kind = ParamKind.keywordOnly
        · simp only [splitParams, hp, hl, if_pos hk] at h
          obtain ⟨⟨tail, ht1, ht2⟩, hkw⟩ := ih _ _ _ _ h
          refine ⟨⟨tail, ?_, ht2⟩, fun e he => ?_⟩
          · simpa [positionalSplit, hp, hl, hk] using ht1
          · rcases hkw e he with h1 | ⟨p', hp', rest'⟩
            · rcases mem_setA _ _ _ _ h1 with h2 | h2
              · exact .inl h2
              · exact .inr ⟨p, List.mem_cons_self _ _, pp, hp, hk, by rw [h2]⟩
            · exact .inr ⟨p', List.mem_cons_of_mem _ hp', rest'⟩
        · simp only [splitParams, hp, hl, if_neg hk] at h
          obtain ⟨⟨tail, ht1, ht2⟩, hkw⟩ := ih _ _ _ _ h
          refine ⟨⟨t.task_id :: tail, ?_, by simp [ht2]⟩, fun e he => ?_⟩
          · simp [positionalSplit, hp, hl, hk, ht1]
          · rcases hkw e he with h1 | ⟨p', hp', rest'⟩
            · exact .inl h1
            · exact .inr ⟨p', List.mem_cons_of_mem _ hp', rest'⟩

theorem taskPreds_length (g : Graph) (tasks : List (Nat × Task)) :
    ∀ params preds, taskPreds g tasks params = .ok preds →
      preds.length = params.length := by
  intro params
  induction params with
  | nil =>
    intro preds h
    simp only [taskPreds, Except.ok.injEq] at h
    simp [← h]
  | cons p rest ih =>
    intro preds h
    rw [taskPreds] at h
    rcases hl : lookupA tasks (g.node p.dependency).cache_key with _ | t
    · rw [hl] at h; exact absurd h (by simp)
    · rw [hl] at h
      rcases hr : taskPreds g tasks rest with e | ps
      · rw [hr] at h; exact absurd h (by simp)
      · rw [hr] at h
        simp only [Except.ok.injEq] at h
        simp [← h, ih ps hr]

theorem predsOf_cons (e : Nat × List Nat) (rest : List (Nat × List Nat)) (n : Nat) :
    predsOf (e :: rest) n =
      if e.1 = n then e.2 ++ predsOf rest n else predsOf rest n := rfl

theorem predsOf_of_mem (graph : List (Nat × List Nat)) :
    ∀ (n : Nat) (ps : List Nat), (n, ps) ∈ graph → ∀ p ∈ ps, p ∈ predsOf graph n := by
  induction graph with
  | nil => simp
  | cons e rest ih =>
    intro n ps hmem p hp
    rw [predsOf_cons]
    rcases List.mem_cons.mp hmem with h | h
    · rw [← h]
      simp only [if_pos rfl]
      exact List.mem_append_left _ hp
    · by_cases he : e.1 = n
      · rw [if_pos he]
        exact List.mem_append_right _ (ih n ps h p hp)
      · rw [if_neg he]
        exact ih n ps h p hp

theorem length_filter_lt {α : Type} (p : α → Bool) :
    ∀ (l : List α) (a : α), a ∈ l → p a = false → (l.filter p).length < l.length := by
  intro l
  induction l with
  | nil => intro a ha; exact absurd ha (List.not_mem_nil a)
  | cons hd tl ih =>
    intro a ha hpa
    rcases List.mem_cons.mp ha with h | h
    · subst h
      rw [List.filter_cons, if_neg (by simp [hpa])]
      exact Nat.lt_succ_of_le (List.length_filter_le p tl)
    · rw [List.filter_cons]
      by_cases hhd : p hd
      · rw [if_pos (by simp [hhd])]
        simpa using ih a h hpa
      · rw [if_neg (by simp [Bool.eq_false_iff.mpr hhd])]
        exact Nat.lt_succ_of_lt (ih a h hpa)

theorem kahnLoop_topo (graph : List (Nat × List Nat)) :
    ∀ (fuel : Nat) (pending acc order : List Nat),
      (∀ (j n : Nat), acc[j]? = some n →
        ∀ p ∈ predsOf graph n, ∃ i : Nat, i < j ∧ acc[i]? = some p) →
      kahnLoop graph fuel pending acc = .ok order →
      ∀ (j n : Nat), order[j]? = some n →
        ∀ p ∈ predsOf graph n, ∃ i : Nat, i < j ∧ order[i]? = some p := by
  intro fuel
  induction fuel with
  | zero =>
    intro pending acc order hinv h
    exact absurd h (by simp [kahnLoop])
  | succ fuel ih =>
    intro pending acc order hinv h
    simp only [kahnLoop] at h
    rcases hbatch : pending.filter (fun n => (predsOf graph n).all (· ∈ acc)) with _ | ⟨b, bs⟩
    · rw [hbatch] at h
      by_cases hpend : pending.isEmpty
      · rw [if_pos hpend] at h
        have hord : acc = order := by cases h; rfl
        exact hord ▸ hinv
      · rw [if_neg hpend] at h
        exact absurd h (by simp)
    · rw [hbatch] at h
      have h' : kahnLoop graph fuel (pending.filter (fun x => decide (x ∉ b :: bs)))
          (acc ++ b :: bs) = .ok order := h
      refine ih _ _ _ ?_ h'
      intro j n hj p hp
      by_cases hlt : j < acc.length
      · rw [List.getElem?_append_left hlt] at hj
        obtain ⟨i, hi1, hi2⟩ := hinv j n hj p hp
        exact ⟨i, hi1, by rw [List.getElem?_append_left (Nat.lt_trans hi1 hlt)]; exact hi2⟩
      · push_neg at hlt
        rw [List.getElem?_append_right hlt] at hj
        have hn : n ∈ b :: bs := List.getElem?_mem hj
        have hn' : n ∈ pending.filter (fun n => (predsOf graph n).all (· ∈ acc)) := by
          rw [hbatch]; exact hn
        have hall := (List.mem_filter.mp hn').2
        rw [List.all_eq_true] at hall
        have hpacc : p ∈ acc := by
          have := hall p hp
          simpa using this
        obtain ⟨i, hi⟩ := List.getElem?_of_mem hpacc
        have hilt : i < acc.length := by
          by_contra hc
          push_neg at hc
          rw [List.getElem?_eq_none_iff.mpr hc] at hi
          exact Option.noConfusion hi
        exact ⟨i, Nat.lt_of_lt_of_le hilt hlt,
          by rw [List.getElem?_append_left hilt]; exact hi⟩

theorem kahnLoop_perm (graph : List (Nat × List Nat)) :
    ∀ (fuel : Nat) (pending acc order : List Nat),
      kahnLoop graph fuel pending acc = .ok order → order.Perm (acc ++ pending) := by
  intro fuel
  induction fuel with
  | zero =>
    intro pending acc order h
    exact absurd h (by simp [kahnLoop])
  | succ fuel ih =>
    intro pending acc order h
    simp only [kahnLoop] at h
    rcases hbatch : pending.filter (fun n => (predsOf graph n).all (· ∈ acc)) with _ | ⟨b, bs⟩
    · rw [hbatch] at h
      by_cases hpend : pending.isEmpty
      · rw [if_pos hpend] at h
        have hord : acc = order := by cases h; rfl
        have hpe : pending = [] := by
          cases pending
          · rfl
          · exact absurd hpend (by simp)
        rw [← hord, hpe, List.append_nil]
      · rw [if_neg hpend] at h
        exact absurd h (by simp)
    · rw [hbatch] at h
      have h' : kahnLoop graph fuel (pending.filter (fun x => decide (x ∉ b :: bs)))
          (acc ++ b :: bs) = .ok order := h
      have hperm := ih _ _ _ h'
      refine hperm.trans ?_
      rw [List.append_assoc]
      refine List.Perm.append_left acc ?_
      have hcongr : pending.filter (fun x => decide (x ∉ b :: bs)) =
          pending.filter (fun x => !((predsOf graph x).all (· ∈ acc))) := by
        refine List.filter_congr ?_
        intro x hx
        by_cases hPx : ((predsOf graph x).all (· ∈ acc)) = true
        · have hxb : x ∈ b :: bs := by
            rw [← hbatch]
            exact List.mem_filter.mpr ⟨hx, hPx⟩
          simp [hxb, hPx]
        · have hxb : x ∉ b :: bs := by
            rw [← hbatch]
            intro hc
            exact hPx (List.mem_filter.mp hc).2
          simp [hxb, Bool.eq_false_iff.mpr hPx]
      have hfap : List.Perm
          (pending.filter (fun n => (predsOf graph n).all (· ∈ acc)) ++
            pending.filter (fun x => !((predsOf graph x).all (· ∈ acc)))) pending :=
        List.filter_append_perm _ pending
      rw [hbatch] at hfap
      rw [hcongr]
      exact hfap

theorem kahnLoop_no_out (graph : List (Nat × List Nat)) :
    ∀ (fuel : Nat) (pending acc : List Nat), pending.length < fuel →
      kahnLoop graph fuel pending acc ≠ .out := by
  intro fuel
  induction fuel with
  | zero => intro pending acc h; exact absurd h (Nat.not_lt_zero _)
  | succ fuel ih =>
    intro pending acc h
    simp only [kahnLoop]
    rcases hbatch : pending.filter (fun n => (predsOf graph n).all (· ∈ acc)) with _ | ⟨b, bs⟩
    · by_cases hpend : pending.isEmpty
      · simp [hpend]
      · simp [hpend]
    · intro hc
      have hc' : kahnLoop graph fuel (pending.filter (fun x => decide (x ∉ b :: bs)))
          (acc ++ b :: bs) = .out := hc
      have hb : b ∈ pending := by
        have hm : b ∈ pending.filter (fun n => (predsOf graph n).all (· ∈ acc)) := by
          rw [hbatch]; exact List.mem_cons_self b bs
        exact (List.mem_filter.mp hm).1
      have hdec : (pending.filter (fun x => decide (x ∉ b :: bs))).length < pending.length :=
        length_filter_lt _ pending b hb (by simp)
      exact ih _ _ (Nat.lt_of_lt_of_le hdec (Nat.le_of_lt_succ h)) hc'

theorem staticOrderK_no_out (graph : List (Nat × List Nat)) :
    staticOrderK graph ≠ .out :=
  kahnLoop_no_out graph _ _ [] (Nat.lt_succ_self _)

theorem mem_pushNew (l : List Nat) (x y : Nat) : y ∈ pushNew l x ↔ y ∈ l ∨ y = x := by
  unfold pushNew
  by_cases h : x ∈ l
  · rw [if_pos h]
    exact ⟨.inl, fun h1 => h1.elim id (fun h2 => h2 ▸ h)⟩
  · rw [if_neg h]
    simp

theorem pushNew_nodup (l : List Nat) (x : Nat) (h : l.Nodup) : (pushNew l x).Nodup := by
  unfold pushNew
  by_cases hx : x ∈ l
  · rw [if_pos hx]; exact h
  · rw [if_neg hx]
    simp [List.nodup_append, h, hx]

theorem foldl_pushNew_nodup (xs : List Nat) :
    ∀ acc : List Nat, acc.Nodup → (xs.foldl pushNew acc).Nodup := by
  induction xs with
  | nil => intro acc h; exact h
  | cons x xs ih => intro acc h; exact ih _ (pushNew_nodup acc x h)

theorem mem_foldl_pushNew (xs : List Nat) :
    ∀ (acc : List Nat) (y : Nat), y ∈ xs.foldl pushNew acc ↔ y ∈ acc ∨ y ∈ xs := by
  induction xs with
  | nil => simp
  | cons x xs ih =>
    intro acc y
    rw [List.foldl_cons, ih, mem_pushNew]
    simp only [List.mem_cons]
    tauto

theorem mentionOrder_nodup (graph : List (Nat × List Nat)) : (mentionOrder graph).Nodup := by
  unfold mentionOrder
  suffices h : ∀ acc : List Nat, acc.Nodup →
      (graph.foldl (fun acc e => e.2.foldl pushNew (pushNew acc e.1)) acc).Nodup from
    h [] List.nodup_nil
  induction graph with
  | nil => intro acc h; exact h
  | cons e rest ih =>
    intro acc h
    exact ih _ (foldl_pushNew_nodup _ _ (pushNew_nodup _ _ h))

theorem mem_mentionOrder (graph : List (Nat × List Nat)) :
    ∀ y : Nat, y ∈ mentionOrder graph ↔ ∃ e ∈ graph, y = e.1 ∨ y ∈ e.2 := by
  unfold mentionOrder
  suffices h : ∀ (acc : List Nat) (y : Nat),
      y ∈ graph.foldl (fun acc e => e.2.foldl pushNew (pushNew acc e.1)) acc ↔
        y ∈ acc ∨ ∃ e ∈ graph, y = e.1 ∨ y ∈ e.2 by
    intro y
    rw [h [] y]
    simp
  induction graph with
  | nil => simp
  | cons e rest ih =>
    intro acc y
    rw [List.foldl_cons, ih, mem_foldl_pushNew, mem_pushNew]
    simp only [List.mem_cons]
    constructor
    · rintro (((h1 | h1) | h1) | ⟨e', he', h1⟩)
      · exact .inl h1
      · exact .inr ⟨e, .inl rfl, .inl h1⟩
      · exact .inr ⟨e, .inl rfl, .inr h1⟩
      · exact .inr ⟨e', .inr he', h1⟩
    · rintro (h1 | ⟨e', he' | he', h1⟩)
      · exact .inl (.inl (.inl h1))
      · subst he'
        rcases h1 with h1 | h1
        · exact .inl (.inl (.inr h1))
        · exact .inl (.inr h1)
      · exact .inr ⟨e', he', h1⟩

theorem solve_ok_inversion (g : Graph) (dep0 : Nat) (scopes : List (Option Nat))
    (binds : List BindHook) (plan : SolvedDependant)
    (h : solve g dep0 scopes binds = .ok plan) :
    ∃ st dep_topsort tasks heap tsAdds static_order root_task,
      solveLoop g binds (fuelBound g) ⟨[applyRootBinds binds dep0], [], [], [], [], []⟩ = .ok st ∧
      staticOrderK (nodeSorterGraph g (computableParamGraph g st.param_graph)) = .ok dep_topsort ∧
      build_tasks g (computableParamGraph g st.param_graph) st.dependants dep_topsort 0 [] [] []
        = .ok (tasks, heap, tsAdds) ∧
      staticOrderK tsAdds = .ok static_order ∧
      lookupA tasks (g.node (applyRootBinds binds dep0)).cache_key = some root_task ∧
      validate_scopes g scopes st.dep_dag = .ok () ∧
      plan = ⟨applyRootBinds binds dep0, st.param_graph,
        ⟨root_task, tsAdds, static_order, List.replicate tasks.length none, heap⟩⟩ := by
  simp only [solve] at h
  split at h
  · exact absurd h (by simp)
  · next st heq1 =>
    split at h
    · exact absurd h (by simp)
    · exact absurd h (by simp)
    · next ts heq2 =>
      split at h
      · exact absurd h (by simp)
      · next tasks heap tsAdds heq3 =>
        split at h
        · exact absurd h (by simp)
        · exact absurd h (by simp)
        · next so heq4 =>
          split at h
          · exact absurd h (by simp)
          · next root_task heq5 =>
            split at h
            · exact absurd h (by simp)
            · next u heq6 =>
              cases u
              exact ⟨st, ts, tasks, heap, tsAdds, so, root_task, heq1, heq2, heq3, heq4,
                heq5, heq6, by injection h with h'; exact h'.symm⟩

/-- C1: for every solved plan, the static order is a topological order of
the compiled task graph: each task registered in the execution-time sorter
occurs in the static order strictly after every one of its registered
dependency tasks. -/
theorem c1_static_order_topological (g : Graph) (dep0 : Nat) (scopes : List (Option Nat))
    (binds : List BindHook) (plan : SolvedDependant)
    (h : solve g dep0 scopes binds = .ok plan)
    (tid : Nat) (preds : List Nat)
    (hmem : (tid, preds) ∈ plan.container_cache.topological_sorter)
    (p : Nat) (hp : p ∈ preds) (j : Nat)
    (hj : plan.container_cache.static_order[j]? = some tid) :
    ∃ i : Nat, i < j ∧ plan.container_cache.static_order[i]? = some p := by
  obtain ⟨st, ts, tasks, heap, tsAdds, so, root_task, h1, h2, h3, h4, h5, h6, hplan⟩ :=
    solve_ok_inversion g dep0 scopes binds plan h
  subst hplan
  dsimp only at hmem hj ⊢
  have hpreds : p ∈ predsOf tsAdds tid := predsOf_of_mem tsAdds tid preds hmem p hp
  unfold staticOrderK at h4
  exact kahnLoop_topo tsAdds _ _ _ _ (by intro j' n' hjn; simp at hjn) h4 j tid hj p hpreds

/-- C1 witness: in the solved two-node chain `cgChain` the root task (id 1)
lists task 0 among its sorter predecessors, and task 0 indeed occurs before
position 1 in the static order. -/
theorem c1_static_order_topological_witness :
    ∃ i : Nat, i < 1 ∧
      (planOf (solve cgChain 0 [none] [])).container_cache.static_order[i]? = some 0 :=
  c1_static_order_topological cgChain 0 [none] [] (planOf (solve cgChain 0 [none] []))
    rfl 1 [0] (by decide) 0 (by decide) 1 rfl

/-- C5 counterexample: with two always-matching hooks registered in order,
the code rebinds the edge with hook one's output and then *also* consults
hook two on that output, ending at dependency 2; under the claim's
"first non-null replacement wins, substitution stops" reading the edge would
end at dependency 1. -/
theorem c5_counterexample :
    bindParam [hookOne, hookTwo] pExample = ⟨some ⟨"x", .positionalOrKeyword, false⟩, 2⟩ ∧
    firstMatchBind [hookOne, hookTwo] pExample = ⟨some ⟨"x", .positionalOrKeyword, false⟩, 1⟩ ∧
    bindParam [hookOne, hookTwo] pExample ≠ firstMatchBind [hookOne, hookTwo] pExample :=
  ⟨rfl, rfl, by decide⟩

/-- C5 (amended): bind hooks are tried in registration order and every hook
is consulted; each non-null replacement becomes the current node seen by the
remaining hooks (so hook lists compose by chaining, for edges and for the
root alike), while the parameter descriptor passed to the hooks never
changes. -/
theorem c5_bind_hooks_chain (b1 b2 : List BindHook) (p : DependencyParameter) (d : Nat) :
    bindParam (b1 ++ b2) p = bindParam b2 (bindParam b1 p) ∧
    applyRootBinds (b1 ++ b2) d = applyRootBinds b2 (applyRootBinds b1 d) ∧
    (bindParam b1 p).parameter = p.parameter :=
  ⟨by simp [bindParam, List.foldl_append],
   by simp [applyRootBinds, List.foldl_append],
   bindParam_parameter b1 p⟩

/-- C6 counterexample: in `cgAbsentParam` the root's only dependency edge
carries no parameter descriptor; the compiled root task records that edge as
a scheduling predecessor (task 0 in the sorter registration) but its
positional sequence and keyword mapping are both empty, so a
parameter-absent edge does *not* contribute to the positional sequence. -/
theorem c6_counterexample :
    solve cgAbsentParam 0 [none] [] = .ok (planOf (solve cgAbsentParam 0 [none] [])) ∧
    (planOf (solve cgAbsentParam 0 [none] [])).container_cache.root_task.positional_parameters
      = [] ∧
    (planOf (solve cgAbsentParam 0 [none] [])).container_cache.root_task.keyword_parameters
      = [] ∧
    (planOf (solve cgAbsentParam 0 [none] [])).container_cache.topological_sorter
      = [(0, []), (1, [0])] :=
  ⟨rfl, rfl, rfl, rfl⟩

theorem splitParams_keywordSplit (g : Graph) (tasks : List (Nat × Task)) :
    ∀ (params : List DependencyParameter) (pos0 : List Nat) (kw0 : List (String × Nat))
      (pos : List Nat) (kw : List (String × Nat)),
      splitParams g tasks params pos0 kw0 = .ok (pos, kw) →
      keywordSplit g tasks params kw0 = some kw := by
  intro params
  induction params with
  | nil =>
    intro pos0 kw0 pos kw h
    simp only [splitParams, Except.ok.injEq, Prod.mk.injEq] at h
    simp [keywordSplit, h.2]
  | cons p rest ih =>
    intro pos0 kw0 pos kw h
    rcases hp : p.parameter with _ | pp
    · rw [splitParams, hp] at h
      simp only [keywordSplit, hp]
      exact ih _ _ _ _ h
    · rcases hl : lookupA tasks (g.node p.dependency).cache_key with _ | t
      · simp [splitParams, hp, hl] at h
      · by_cases hk : pp.kind = ParamKind.keywordOnly
        · simp only [splitParams, hp, hl, if_pos hk] at h
          simp only [keywordSplit, hp, hl, if_pos hk]
          exact ih _ _ _ _ h
        · simp only [splitParams, hp, hl, if_neg hk] at h
          simp only [keywordSplit, hp, hl, if_neg hk]
          exact ih _ _ _ _ h

theorem keywordSplit_entries (g : Graph) (tasks : List (Nat × Task)) :
    ∀ (params : List DependencyParameter) (kw0 kw : List (String × Nat)),
      keywordSplit g tasks params kw0 = some kw →
      ∀ e ∈ kw, e ∈ kw0 ∨ ∃ p ∈ params, ∃ pp, p.parameter = some pp ∧
        pp.kind = ParamKind.keywordOnly ∧ pp.name = e.1 ∧
        ∃ t, lookupA tasks (g.node p.dependency).cache_key = some t ∧
          t.task_id = e.2 := by
  intro params
  induction params with
  | nil =>
    intro kw0 kw h e he
    simp only [keywordSplit, Option.some.injEq] at h
    exact .inl (h ▸ he)
  | cons p rest ih =>
    intro kw0 kw h e he
    rcases hp : p.parameter with _ | pp
    · simp only [keywordSplit, hp] at h
      rcases ih _ _ h e he with h1 | ⟨p', hp', rest'⟩
      · exact .inl h1
      · exact .inr ⟨p', List.mem_cons_of_mem _ hp', rest'⟩
    · rcases hl : lookupA tasks (g.node p.dependency).cache_key with _ | t
      · simp [keywordSplit, hp, hl] at h
      · by_cases hk : pp.kind = ParamKind.keywordOnly
        · simp only [keywordSplit, hp, hl, if_pos hk] at h
          rcases ih _ _ h e he with h1 | ⟨p', hp', rest'⟩
          · rcases mem_setA _ _ _ _ h1 with h2 | h2
            · exact .inl h2
            · refine .inr ⟨p, List.mem_cons_self _ _, pp, hp, hk, ?_, t, hl, ?_⟩
              · rw [h2]
              · rw [h2]
          · exact .inr ⟨p', List.mem_cons_of_mem _ hp', rest'⟩
        · simp only [keywordSplit, hp, hl, if_neg hk] at h
          rcases ih _ _ h e he with h1 | ⟨p', hp', rest'⟩
          · exact .inl h1
          · exact .inr ⟨p', List.mem_cons_of_mem _ hp', rest'⟩

theorem keywordSplit_names (g : Graph) (tasks : List (Nat × Task)) :
    ∀ (params : List DependencyParameter) (kw0 kw : List (String × Nat)),
      keywordSplit g tasks params kw0 = some kw →
      (∀ name : String, (lookupA kw0 name).isSome → (lookupA kw name).isSome) ∧
      (∀ p ∈ params, ∀ pp, p.parameter = some pp → pp.kind = ParamKind.keywordOnly →
        (lookupA kw pp.name).isSome) := by
  intro params
  induction params with
  | nil =>
    intro kw0 kw h
    simp only [keywordSplit, Option.some.injEq] at h
    subst h
    exact ⟨fun name h1 => h1, fun p hp => absurd hp (List.not_mem_nil p)⟩
  | cons p rest ih =>
    intro kw0 kw h
    rcases hp : p.parameter with _ | pp
    · simp only [keywordSplit, hp] at h
      obtain ⟨ih1, ih2⟩ := ih _ _ h
      refine ⟨ih1, ?_⟩
      intro p' hp' pp' hpar hkind
      rcases List.mem_cons.mp hp' with h1 | h1
      · subst h1
        rw [hp] at hpar
        cases hpar
      · exact ih2 p' h1 pp' hpar hkind
    · rcases hl : lookupA tasks (g.node p.dependency).cache_key with _ | t
      · simp [keywordSplit, hp, hl] at h
      · by_cases hk : pp.kind = ParamKind.keywordOnly
        · simp only [keywordSplit, hp, hl, if_pos hk] at h
          obtain ⟨ih1, ih2⟩ := ih _ _ h
          have hpres : ∀ name : String, (lookupA kw0 name).isSome →
              (lookupA (setA kw0 pp.name t.task_id) name).isSome := by
            intro name h1
            rw [lookupA_setA]
            by_cases hn : pp.name = name
            · simp [hn]
            · simpa [hn] using h1
          refine ⟨fun name h1 => ih1 name (hpres name h1), ?_⟩
          intro p' hp' pp' hpar hkind
          rcases List.mem_cons.mp hp' with h1 | h1
          · subst h1
            rw [hp] at hpar
            have hpe : pp = pp' := by injection hpar
            subst hpe
            refine ih1 pp.name ?_
            rw [lookupA_setA]
            simp
          · exact ih2 p' h1 pp' hpar hkind
        · simp only [keywordSplit, hp, hl, if_neg hk] at h
          obtain ⟨ih1, ih2⟩ := ih _ _ h
          refine ⟨ih1, ?_⟩
          intro p' hp' pp' hpar hkind
          rcases List.mem_cons.mp hp' with h1 | h1
          · subst h1
            rw [hp] at hpar
            have hpe : pp = pp' := by injection hpar
            subst hpe
            exact absurd hkind hk
          · exact ih2 p' h1 pp' hpar hkind

theorem taskPreds_ok_forall2 (g : Graph) (tasks : List (Nat × Task)) :
    ∀ (params : List DependencyParameter) (preds : List Nat),
      taskPreds g tasks params = .ok preds →
      List.Forall₂ (fun p tid => ∃ t,
        lookupA tasks (g.node p.dependency).cache_key = some t ∧ t.task_id = tid)
        params preds := by
  intro params
  induction params with
  | nil =>
    intro preds h
    simp only [taskPreds, Except.ok.injEq] at h
    rw [← h]
    exact List.Forall₂.nil
  | cons p rest ih =>
    intro preds h
    rcases hl : lookupA tasks (g.node p.dependency).cache_key with _ | t
    · simp [taskPreds, hl] at h
    · rcases hr : taskPreds g tasks rest with e | ps
      · simp [taskPreds, hl, hr] at h
      · simp only [taskPreds, hl, hr, Except.ok.injEq] at h
        rw [← h]
        exact List.Forall₂.cons ⟨t, hl, rfl⟩ (ih ps hr)

/-- C6 (amended): when the task compiler splits a node's edges:
the positional sequence consists, in edge order, of the dependency tasks of
exactly the edges whose parameter is present and not keyword-only
(`positionalSplit`); the keyword mapping is exactly the dictionary built by
assigning, for each keyword-only edge in edge order, that edge's dependency
task under its parameter name (`keywordSplit`, Python-dict overwrite
semantics) — so every keyword-only edge has its name bound in the mapping,
to the dependency task of a same-named keyword-only edge (its own when no
later edge reuses the name), and every mapping entry arises from a
keyword-only edge whose dependency task is the entry's value; edges with an
absent parameter contribute to neither; and the `ts.add` registration lists
pointwise, in edge order, the dependency task of every edge, parametered or
not. -/
theorem c6_split (g : Graph) (tasks : List (Nat × Task)) (params : List DependencyParameter)
    (pos : List Nat) (kw : List (String × Nat)) (preds : List Nat)
    (hsplit : splitParams g tasks params [] [] = .ok (pos, kw))
    (hpreds : taskPreds g tasks params = .ok preds) :
    positionalSplit g tasks params = some pos ∧
    keywordSplit g tasks params [] = some kw ∧
    (∀ p ∈ params, ∀ pp, p.parameter = some pp → pp.kind = ParamKind.keywordOnly →
      ∃ tid, lookupA kw pp.name = some tid ∧
        ∃ p' ∈ params, ∃ pp', p'.parameter = some pp' ∧
          pp'.kind = ParamKind.keywordOnly ∧ pp'.name = pp.name ∧
          ∃ t, lookupA tasks (g.node p'.dependency).cache_key = some t ∧
            t.task_id = tid) ∧
    (∀ e ∈ kw, ∃ p ∈ params, ∃ pp, p.parameter = some pp ∧
      pp.kind = ParamKind.keywordOnly ∧ pp.name = e.1 ∧
      ∃ t, lookupA tasks (g.node p.dependency).cache_key = some t ∧ t.task_id = e.2) ∧
    List.Forall₂ (fun p tid => ∃ t,
      lookupA tasks (g.node p.dependency).cache_key = some t ∧ t.task_id = tid)
      params preds ∧
    preds.length = params.length := by
  obtain ⟨⟨tail, ht1, ht2⟩, _⟩ := splitParams_ok g tasks params [] [] pos kw hsplit
  have hpt : pos = tail := by simpa using ht2
  have hkws := splitParams_keywordSplit g tasks params [] [] pos kw hsplit
  have hf2 := taskPreds_ok_forall2 g tasks params preds hpreds
  refine ⟨by rw [hpt]; exact ht1, hkws, ?_, ?_, hf2, hf2.length_eq.symm⟩
  · intro p hp pp hpar hkind
    obtain ⟨_, hnames⟩ := keywordSplit_names g tasks params [] kw hkws
    have hsome := hnames p hp pp hpar hkind
    rcases hlk : lookupA kw pp.name with _ | tid
    · rw [hlk] at hsome
      simp at hsome
    · refine ⟨tid, rfl, ?_⟩
      have hmem := lookupA_some_mem kw pp.name tid hlk
      rcases keywordSplit_entries g tasks params [] kw hkws (pp.name, tid) hmem with h1 | h1
      · exact absurd h1 (List.not_mem_nil _)
      · obtain ⟨p', hp', pp', hpar', hkind', hname', t, hl', hid'⟩ := h1
        exact ⟨p', hp', pp', hpar', hkind', hname', t, hl', hid'⟩
  · intro e he
    rcases keywordSplit_entries g tasks params [] kw hkws e he with h1 | h1
    · exact absurd h1 (List.not_mem_nil e)
    · exact h1

/-- C6 witness: on the single keyword-only edge `paramsC6` (name `k`, to
task 0) the mapping is exactly `[("k", 0)]`, the edge's name is bound to
its own dependency task, and the edge is the sole scheduling predecessor;
on `cgChain`'s root edge the positional sequence is `[0]`. -/
theorem c6_split_witness :
    keywordSplit cgChain tasksC6 paramsC6 [] = some [("k", 0)] ∧
    (∃ tid, lookupA [("k", 0)] "k" = some tid ∧
      ∃ p' ∈ paramsC6, ∃ pp', p'.parameter = some pp' ∧
        pp'.kind = ParamKind.keywordOnly ∧ pp'.name = "k" ∧
        ∃ t, lookupA tasksC6 (cgChain.node p'.dependency).cache_key = some t ∧
          t.task_id = tid) ∧
    List.Forall₂ (fun p tid => ∃ t,
      lookupA tasksC6 (cgChain.node p.dependency).cache_key = some t ∧ t.task_id = tid)
      paramsC6 [0] ∧
    positionalSplit cgChain tasksC6 (cgChain.node 0).deps = some [0] := by
  have h1 := c6_split cgChain tasksC6 paramsC6 [] [("k", 0)] [0] rfl rfl
  have h2 := c6_split cgChain tasksC6 (cgChain.node 0).deps [0] [] [0] rfl rfl
  refine ⟨h1.2.1, ?_, h1.2.2.2.2.1, h2.1⟩
  exact h1.2.2.1 ⟨some ⟨"k", ParamKind.keywordOnly, false⟩, 1⟩ (List.mem_cons_self _ _)
    ⟨"k", ParamKind.keywordOnly, false⟩ rfl rfl

/-- C4: at the failing input `cgCycle` (root 0 outside the two-cycle
`key 1 → key 2 → key 1`), `solve` does raise the dependency-cycle error, but
the error's path is the single element `key 1` — the sorter's cycle member,
a cache key that can never match the node-keyed parent map — rather than a
path from the root into the cycle (which would start at node 0 and have at
least two elements). -/
theorem c4_cycle_path_not_from_root :
    solve cgCycle 0 [none] [] = .error (.dependencyCycle [PathElem.key 1]) ∧
    [PathElem.key 1] ≠ [] ∧ PathElem.node 0 ∉ [PathElem.key 1] :=
  ⟨rfl, by decide, by decide⟩

/-- C9: the two literal scenarios of `test_cache_rules_multiple_deps`
(executions in two fresh inner scope instances sharing one outer scope
instance): with both uses cached in the outer scope the pair-sets are
`{0}` and `{0}`; with the first use uncached and the second cached they are
`{0, 1}` and `{2, 1}` — the cached slot keeps value 1 across executions,
the uncached slot draws fresh values 0 and 2. -/
theorem c9_caching_scenarios :
    scenarioRun gBothCached = some ({0}, {0}) ∧
    scenarioRun gFirstUncached = some ({0, 1}, {2, 1}) :=
  ⟨rfl, rfl⟩

/-- C3: at *any* traversal state about to pop a node whose cache key is
already registered, the loop raises `SolvingError` naming the new scope, the
registered scope and the parent-map path when the scopes differ, and
otherwise skips the node entirely — same queue tail, nothing registered,
no parameters resolved. -/
theorem c3_scope_conflict_step (g : Graph) (binds : List BindHook) (fuel : Nat)
    (st : SolveState) (dep : Nat) (rest : List Nat) (otherId : Nat)
    (hq : st.q = dep :: rest)
    (hdup : lookupA st.dependants (g.node dep).cache_key = some otherId) :
    ((g.node otherId).scope ≠ (g.node dep).scope →
      solveLoop g binds (fuel + 1) st =
        .error (.solving (g.node dep).scope (g.node otherId).scope
          (get_path st.parents (.node dep)))) ∧
    ((g.node otherId).scope = (g.node dep).scope →
      solveLoop g binds (fuel + 1) st =
        solveLoop g binds fuel { st with q := rest, seen := insertSeen st.seen dep }) := by
  constructor <;> intro h <;> simp [solveLoop, hq, hdup, h]

/-- C3 witness: node 0 (innermost scope) popped against registered node 1
(scope 0) raises the scope conflict; node 2 (scope 0) popped against the
same registration is skipped with the state otherwise untouched. -/
theorem c3_scope_conflict_step_witness :
    solveLoop gC3 [] 5 stC3 = .error (.solving none (some 0) [PathElem.node 0]) ∧
    solveLoop gC3 [] 5 stC3' =
      solveLoop gC3 [] 4 { stC3' with q := [], seen := insertSeen stC3'.seen 2 } :=
  ⟨(c3_scope_conflict_step gC3 [] 4 stC3 0 [] 1 rfl rfl).1 (by decide),
   (c3_scope_conflict_step gC3 [] 4 stC3' 2 [] 1 rfl rfl).2 (by decide)⟩

theorem findSome?_eq_none_mem {α β : Type} (f : α → Option β) :
    ∀ (l : List α), l.findSome? f = none → ∀ a ∈ l, f a = none := by
  intro l
  induction l with
  | nil => intro _ a ha; exact absurd ha (List.not_mem_nil a)
  | cons hd tl ih =>
    intro h a ha
    rw [List.findSome?_cons] at h
    rcases hf : f hd with _ | b
    · rw [hf] at h
      rcases List.mem_cons.mp ha with h1 | h1
      · exact h1 ▸ hf
      · exact ih h a h1
    · rw [hf] at h; cases h

theorem get_path_aux_suffix (parents : List (Nat × Nat)) :
    ∀ (fuel : Nat) (cur : PathElem) (acc : List PathElem),
      ∃ pre, get_path_aux parents cur acc fuel = pre ++ cur :: acc := by
  intro fuel
  induction fuel with
  | zero => intro cur acc; exact ⟨[], rfl⟩
  | succ fuel ih =>
    intro cur acc
    rcases cur with i | k
    · rcases hl : lookupA parents i with _ | p
      · exact ⟨[], by simp [get_path_aux, hl]⟩
      · obtain ⟨pre, hpre⟩ := ih (.node p) (PathElem.node i :: acc)
        refine ⟨pre ++ [PathElem.node p], ?_⟩
        simp only [get_path_aux, hl]
        rw [hpre, List.append_assoc]
        rfl
    · exact ⟨[], rfl⟩

theorem get_path_last (parents : List (Nat × Nat)) (x : PathElem) :
    (get_path parents x).getLast? = some x := by
  obtain ⟨pre, hpre⟩ := get_path_aux_suffix parents (parents.length + 1) x []
  rw [get_path, hpre]
  exact List.getLast?_concat pre

theorem chainN_parentless (parents : List (Nat × Nat)) (d r nsteps : Nat)
    (h : ChainN parents d r nsteps) : lookupA parents r = none := by
  induction h with
  | stop r hr => exact hr
  | up d p r n hd htail ih => exact ih

theorem get_path_aux_chain (parents : List (Nat × Nat)) (d r nsteps : Nat)
    (h : ChainN parents d r nsteps) :
    ∀ (fuel : Nat), nsteps < fuel → ∀ acc : List PathElem,
      ∃ mid, get_path_aux parents (.node d) acc fuel = PathElem.node r :: (mid ++ acc) := by
  induction h with
  | stop r hr =>
    intro fuel hf acc
    cases fuel with
    | zero => exact absurd hf (Nat.not_lt_zero _)
    | succ fuel => exact ⟨[], by simp [get_path_aux, hr]⟩
  | up d p r n hd htail ih =>
    intro fuel hf acc
    cases fuel with
    | zero => exact absurd hf (Nat.not_lt_zero _)
    | succ fuel =>
      obtain ⟨mid, hmid⟩ := ih fuel (Nat.lt_of_succ_lt_succ hf) (PathElem.node d :: acc)
      refine ⟨mid ++ [PathElem.node d], ?_⟩
      simp only [get_path_aux, hd]
      rw [hmid, List.append_assoc]
      rfl

theorem firstWiringViolation_some (g : Graph) (params : List DependencyParameter)
    (pp : Parameter) (h : firstWiringViolation g params = some pp) :
    ∃ p ∈ params, p.parameter = some pp ∧ (g.node p.dependency).call = none ∧
      pp.hasDefault = false := by
  obtain ⟨p, hp, hf⟩ := List.exists_of_findSome?_eq_some h
  rcases hpar : p.parameter with _ | pp'
  · simp only [hpar] at hf
    exact Option.noConfusion hf
  · simp only [hpar] at hf
    by_cases hcond : ((g.node p.dependency).call.isNone && !pp'.hasDefault) = true
    · rw [if_pos hcond] at hf
      have hpp : pp' = pp := by injection hf
      subst hpp
      have hcond' : (g.node p.dependency).call.isNone = true ∧ pp'.hasDefault = false := by
        simpa using hcond
      exact ⟨p, hp, hpar, Option.isNone_iff_eq_none.mp hcond'.1, hcond'.2⟩
    · rw [if_neg hcond] at hf; cases hf

theorem splitParams_error_kind (g : Graph) (tasks : List (Nat × Task)) :
    ∀ params pos kw e, splitParams g tasks params pos kw = .error e →
      ∃ k, e = .keyError k := by
  intro params
  induction params with
  | nil => intro pos kw e h; exact absurd h (by simp [splitParams])
  | cons p rest ih =>
    intro pos kw e h
    rcases hp : p.parameter with _ | pp
    · simp only [splitParams, hp] at h
      exact ih _ _ _ h
    · rcases hl : lookupA tasks (g.node p.dependency).cache_key with _ | t
      · simp only [splitParams, hp, hl] at h
        exact ⟨(g.node p.dependency).cache_key, by injection h with h'; exact h'.symm⟩
      · by_cases hk : pp.kind = ParamKind.keywordOnly
        · simp only [splitParams, hp, hl, if_pos hk] at h; exact ih _ _ _ h
        · simp only [splitParams, hp, hl, if_neg hk] at h; exact ih _ _ _ h

theorem taskPreds_error_kind (g : Graph) (tasks : List (Nat × Task)) :
    ∀ params e, taskPreds g tasks params = .error e → ∃ k, e = .keyError k := by
  intro params
  induction params with
  | nil => intro e h; exact absurd h (by simp [taskPreds])
  | cons p rest ih =>
    intro e h
    rcases hl : lookupA tasks (g.node p.dependency).cache_key with _ | t
    · simp only [taskPreds, hl] at h
      exact ⟨(g.node p.dependency).cache_key, by injection h with h'; exact h'.symm⟩
    · rcases hr : taskPreds g tasks rest with e' | ps
      · simp only [taskPreds, hl, hr] at h
        have h' : e' = e := by injection h
        exact h' ▸ ih e' hr
      · simp only [taskPreds, hl, hr] at h
        exact absurd h (by simp)

theorem build_tasks_error_kind (g : Graph) (dag : List (Nat × List DependencyParameter))
    (dependants : List (Nat × Nat)) :
    ∀ keys task_id tasks heap tsAdds e,
      build_tasks g dag dependants keys task_id tasks heap tsAdds = .error e →
      (∃ k, e = .keyError k) ∨ e = .assertionError := by
  intro keys
  induction keys with
  | nil => intro task_id tasks heap tsAdds e h; exact absurd h (by simp [build_tasks])
  | cons key rest ih =>
    intro task_id tasks heap tsAdds e h
    rcases hd : lookupA dependants key with _ | depId
    · simp only [build_tasks, hd] at h
      exact .inl ⟨key, by injection h with h'; exact h'.symm⟩
    · rcases hg : lookupA dag depId with _ | params
      · simp only [build_tasks, hd, hg] at h
        exact .inl ⟨depId, by injection h with h'; exact h'.symm⟩
      · rcases hs : splitParams g tasks params [] [] with e' | pk
        · simp only [build_tasks, hd, hg, hs] at h
          have h' : e' = e := by injection h
          exact .inl (h' ▸ splitParams_error_kind g tasks params [] [] e' hs)
        · obtain ⟨positional, keyword⟩ := pk
          rcases hc : (g.node depId).call with _ | c
          · simp only [build_tasks, hd, hg, hs, hc] at h
            exact .inr (by injection h with h'; exact h'.symm)
          · rcases ht : taskPreds g
                (setA tasks (g.node depId).cache_key
                  ⟨(g.node depId).scope, c, (g.node depId).use_cache,
                    (g.node depId).cache_key, depId, task_id, positional, keyword⟩)
                params with e' | preds
            · simp only [build_tasks, hd, hg, hs, hc, ht] at h
              have h' : e' = e := by injection h
              exact .inl (h' ▸ taskPreds_error_kind g _ params e' ht)
            · simp only [build_tasks, hd, hg, hs, hc, ht] at h
              exact ih _ _ _ _ _ h

theorem validate_scopes_error_kind (g : Graph) (scopes : List (Option Nat))
    (dd : List (Nat × List Nat)) (err : SolveErr)
    (h : validate_scopes g scopes dd = .error err) :
    ∃ a b s1 s2, err = .scopeValidation a b s1 s2 := by
  unfold validate_scopes at h
  rcases hf : dd.findSome? (fun e => e.2.findSome? fun p =>
      if scopeIdx scopes (g.node e.1).scope < scopeIdx scopes (g.node p).scope
      then some (e.1, p) else none) with _ | pr
  · rw [hf] at h; cases h
  · obtain ⟨d, p⟩ := pr
    rw [hf] at h
    exact ⟨d, p, (g.node d).scope, (g.node p).scope, by injection h with h'; exact h'.symm⟩

theorem solveLoop_step_dup_conflict (g : Graph) (binds : List BindHook) (fuel dep : Nat)
    (rest seen0 : List Nat) (dds : List (Nat × Nat))
    (pg : List (Nat × List DependencyParameter)) (dd : List (Nat × List Nat))
    (par : List (Nat × Nat)) (otherId : Nat)
    (hdup : lookupA dds (g.node dep).cache_key = some otherId)
    (hne : (g.node otherId).scope ≠ (g.node dep).scope) :
    solveLoop g binds (fuel + 1) ⟨dep :: rest, seen0, dds, pg, dd, par⟩ =
      .error (.solving (g.node dep).scope (g.node otherId).scope
        (get_path par (.node dep))) := by
  simp [solveLoop, hdup, hne]

theorem solveLoop_step_dup_skip (g : Graph) (binds : List BindHook) (fuel dep : Nat)
    (rest seen0 : List Nat) (dds : List (Nat × Nat))
    (pg : List (Nat × List DependencyParameter)) (dd : List (Nat × List Nat))
    (par : List (Nat × Nat)) (otherId : Nat)
    (hdup : lookupA dds (g.node dep).cache_key = some otherId)
    (hsc : (g.node otherId).scope = (g.node dep).scope) :
    solveLoop g binds (fuel + 1) ⟨dep :: rest, seen0, dds, pg, dd, par⟩ =
      solveLoop g binds fuel ⟨rest, insertSeen seen0 dep, dds, pg, dd, par⟩ := by
  simp [solveLoop, hdup, hsc]

theorem solveLoop_step_fresh_error (g : Graph) (binds : List BindHook) (fuel dep : Nat)
    (rest seen0 : List Nat) (dds : List (Nat × Nat))
    (pg : List (Nat × List DependencyParameter)) (dd : List (Nat × List Nat))
    (par : List (Nat × Nat)) (e : SolveErr)
    (hdup : lookupA dds (g.node dep).cache_key = none)
    (hgp : get_params g binds par dep = .error e) :
    solveLoop g binds (fuel + 1) ⟨dep :: rest, seen0, dds, pg, dd, par⟩ = .error e := by
  simp [solveLoop, hdup, hgp]

theorem solveLoop_step_fresh_ok (g : Graph) (binds : List BindHook) (fuel dep : Nat)
    (rest seen0 : List Nat) (dds : List (Nat × Nat))
    (pg : List (Nat × List DependencyParameter)) (dd : List (Nat × List Nat))
    (par : List (Nat × Nat)) (params : List DependencyParameter)
    (hdup : lookupA dds (g.node dep).cache_key = none)
    (hgp : get_params g binds par dep = .ok params) :
    solveLoop g binds (fuel + 1) ⟨dep :: rest, seen0, dds, pg, dd, par⟩ =
      solveLoop g binds fuel
        ⟨params.foldl
            (fun acc p => if p.dependency ∈ insertSeen seen0 dep then acc
              else p.dependency :: acc) rest,
          insertSeen seen0 dep,
          dds ++ [((g.node dep).cache_key, dep)],
          pg ++ [(dep, params)],
          dd ++ [(dep, params.map (·.dependency))],
          (params.map (·.dependency)).foldl (fun ps p => setA ps p dep) par⟩ := by
  simp [solveLoop, hdup, hgp]

theorem solveLoop_wiring_origin (g : Graph) (binds : List BindHook) :
    ∀ (fuel : Nat) (st : SolveState) (n : String) (path : List PathElem),
      solveLoop g binds fuel st = .error (.wiring n path) →
      ∃ parents depId, get_params g binds parents depId = .error (.wiring n path) := by
  intro fuel
  induction fuel with
  | zero =>
    intro st n path h
    simp only [solveLoop] at h
    have h' : SolveErr.outOfFuel = SolveErr.wiring n path := by injection h
    cases h'
  | succ fuel ih =>
    intro st n path h
    obtain ⟨q, seen0, dds, pg, dd, par⟩ := st
    rcases q with _ | ⟨dep, rest⟩
    · simp only [solveLoop] at h
      exact absurd h (by simp)
    · rcases hdup : lookupA dds (g.node dep).cache_key with _ | otherId
      · rcases hgp : get_params g binds par dep with e | params
        · rw [solveLoop_step_fresh_error g binds fuel dep rest seen0 dds pg dd par e
            hdup hgp] at h
          have h' : e = .wiring n path := by injection h
          exact ⟨par, dep, h' ▸ hgp⟩
        · rw [solveLoop_step_fresh_ok g binds fuel dep rest seen0 dds pg dd par params
            hdup hgp] at h
          exact ih _ n path h
      · by_cases hsc : (g.node otherId).scope ≠ (g.node dep).scope
        · rw [solveLoop_step_dup_conflict g binds fuel dep rest seen0 dds pg dd par
            otherId hdup hsc] at h
          have h' : SolveErr.solving (g.node dep).scope (g.node otherId).scope
              (get_path par (.node dep)) = .wiring n path := by injection h
          cases h'
        · push_neg at hsc
          rw [solveLoop_step_dup_skip g binds fuel dep rest seen0 dds pg dd par
            otherId hdup hsc] at h
          exact ih _ n path h

theorem solve_wiring_origin (g : Graph) (dep0 : Nat) (scopes : List (Option Nat))
    (binds : List BindHook) (n : String) (path : List PathElem)
    (h : solve g dep0 scopes binds = .error (.wiring n path)) :
    ∃ parents depId, get_params g binds parents depId = .error (.wiring n path) := by
  simp only [solve] at h
  split at h
  · next e heq =>
    have h' : e = .wiring n path := by injection h
    exact solveLoop_wiring_origin g binds _ _ n path (h' ▸ heq)
  · next st heq =>
    split at h
    · exact absurd h (by simp)
    · next cyc heq2 =>
      exact absurd h (by simp)
    · next ts heq2 =>
      split at h
      · next e heq3 =>
        have h' : e = .wiring n path := by injection h
        obtain (⟨k, hk⟩ | hk) := build_tasks_error_kind g _ _ _ _ _ _ _ e heq3
        · rw [h'] at hk; cases hk
        · rw [h'] at hk; cases hk
      · next tasks heap tsAdds heq3 =>
        split at h
        · exact absurd h (by simp)
        · next cyc heq4 =>
          exact absurd h (by simp)
        · next so heq4 =>
          split at h
          · next heq5 =>
            exact absurd h (by simp)
          · next root_task heq5 =>
            split at h
            · next e heq6 =>
              have h' : e = .wiring n path := by injection h
              obtain ⟨a, b, s1, s2, hsv⟩ := validate_scopes_error_kind g scopes _ e heq6
              rw [h'] at hsv; cases hsv
            · next u heq6 => cases h

/-- C7: during graph building, `get_params` raises `WiringError` exactly when
the node's post-bind parameter list has a violation — a *present* parameter
with no default whose dependency has no call — and the error names the first
such parameter and carries the parent-map path of the consuming node; with
no violation it returns the bound parameters unchanged (so edges with a
default, a parameter-less edge, or a dependency with a call never raise).
Every `WiringError` that `solve` raises originates from such a `get_params`
call, and the reported path ends at the consuming node and starts at the
parentless traversal root. -/
theorem c7_wiring_errors (g : Graph) (binds : List BindHook) :
    (∀ (parents : List (Nat × Nat)) (depId : Nat) (n : String) (path : List PathElem),
      get_params g binds parents depId = .error (.wiring n path) ↔
        ∃ pp, firstWiringViolation g ((g.node depId).deps.map (bindParam binds)) = some pp ∧
          pp.name = n ∧ path = get_path parents (.node depId)) ∧
    (∀ (depId : Nat) (pp : Parameter),
      firstWiringViolation g ((g.node depId).deps.map (bindParam binds)) = some pp →
        ∃ p ∈ (g.node depId).deps.map (bindParam binds), p.parameter = some pp ∧
          (g.node p.dependency).call = none ∧ pp.hasDefault = false) ∧
    (∀ (parents : List (Nat × Nat)) (depId : Nat),
      firstWiringViolation g ((g.node depId).deps.map (bindParam binds)) = none →
        get_params g binds parents depId = .ok ((g.node depId).deps.map (bindParam binds))) ∧
    (∀ (dep0 : Nat) (scopes : List (Option Nat)) (n : String) (path : List PathElem),
      solve g dep0 scopes binds = .error (.wiring n path) →
        ∃ parents depId, get_params g binds parents depId = .error (.wiring n path)) ∧
    (∀ (parents : List (Nat × Nat)) (d : Nat),
      (get_path parents (.node d)).getLast? = some (.node d)) ∧
    (∀ (parents : List (Nat × Nat)) (d r nsteps : Nat), ChainN parents d r nsteps →
      nsteps ≤ parents.length →
      (get_path parents (.node d)).head? = some (.node r) ∧ lookupA parents r = none) := by
  refine ⟨?_, ?_, ?_, ?_, ?_, ?_⟩
  · intro parents depId n path
    rcases hv : firstWiringViolation g ((g.node depId).deps.map (bindParam binds))
        with _ | pp
    · constructor
      · intro hc
        simp only [get_params, hv] at hc
        exact absurd hc (by simp)
      · rintro ⟨pp, hpp, _⟩
        exact Option.noConfusion hpp
    · constructor
      · intro hc
        simp only [get_params, hv, Except.error.injEq, SolveErr.wiring.injEq] at hc
        exact ⟨pp, rfl, hc.1, hc.2.symm⟩
      · rintro ⟨pp', hpp', hn, hpath⟩
        have hpp : pp = pp' := by injection hpp'
        subst hpp
        simp only [get_params, hv, hpath, ← hn]
  · intro depId pp h
    exact firstWiringViolation_some g _ pp h
  · intro parents depId h
    simp only [get_params, h]
  · intro dep0 scopes n path h
    exact solve_wiring_origin g dep0 scopes binds n path h
  · intro parents d
    exact get_path_last parents (.node d)
  · intro parents d r nsteps hchain hle
    obtain ⟨mid, hmid⟩ := get_path_aux_chain parents d r nsteps hchain
      (parents.length + 1) (Nat.lt_succ_of_le hle) []
    refine ⟨?_, chainN_parentless parents d r nsteps hchain⟩
    rw [get_path, hmid]
    rfl

/-- C7 witness: in `cgWire` the root's required parameter `x` resolves to a
call-less node, so `get_params` (and `solve`) raise the wiring error naming
`x` with path `[node 0]`; on the two-entry parent map `[(1, 0)]` the walk
from node 1 starts at the parentless root 0 and ends at node 1. -/
theorem c7_wiring_errors_witness :
    get_params cgWire [] [] 0 = .error (.wiring "x" [PathElem.node 0]) ∧
    solve cgWire 0 [none] [] = .error (.wiring "x" [PathElem.node 0]) ∧
    (get_path [(1, 0)] (.node 1)).head? = some (.node 0) ∧
    (get_path [(1, 0)] (.node 1)).getLast? = some (.node 1) := by
  refine ⟨?_, rfl, ?_, ?_⟩
  · exact ((c7_wiring_errors cgWire []).1 [] 0 "x" [PathElem.node 0]).mpr
      ⟨⟨"x", .positionalOrKeyword, false⟩, rfl, rfl, rfl⟩
  · exact ((c7_wiring_errors cgWire []).2.2.2.2.2 [(1, 0)] 1 0 1
      (ChainN.up 1 0 0 0 rfl (ChainN.stop 0 rfl)) (by decide)).1
  · exact (c7_wiring_errors cgWire []).2.2.2.2.1 [(1, 0)] 1

theorem solveLoop_inv (g : Graph) (binds : List BindHook) :
    ∀ (fuel : Nat) (st st' : SolveState),
      solveLoop g binds fuel st = .ok st' →
      st.dependants = st.param_graph.map (fun e => ((g.node e.1).cache_key, e.1)) →
      (st.dependants.map Prod.fst).Nodup →
      st.dep_dag = st.param_graph.map (fun e => (e.1, e.2.map (·.dependency))) →
      st'.dependants = st'.param_graph.map (fun e => ((g.node e.1).cache_key, e.1)) ∧
      (st'.dependants.map Prod.fst).Nodup ∧
      st'.dep_dag = st'.param_graph.map (fun e => (e.1, e.2.map (·.dependency))) := by
  intro fuel
  induction fuel with
  | zero => intro st st' h _ _ _; exact absurd h (by simp [solveLoop])
  | succ fuel ih =>
    intro st st' h h1 h2 h3
    obtain ⟨q, seen0, dds, pg, dd, par⟩ := st
    dsimp only at h1 h2 h3
    rcases q with _ | ⟨dep, rest⟩
    · simp only [solveLoop] at h
      have hst : (⟨[], seen0, dds, pg, dd, par⟩ : SolveState) = st' := by injection h
      exact hst ▸ ⟨h1, h2, h3⟩
    · rcases hdup : lookupA dds (g.node dep).cache_key with _ | otherId
      · rcases hgp : get_params g binds par dep with e | params
        · rw [solveLoop_step_fresh_error g binds fuel dep rest seen0 dds pg dd par e
            hdup hgp] at h
          exact absurd h (by simp)
        · rw [solveLoop_step_fresh_ok g binds fuel dep rest seen0 dds pg dd par params
            hdup hgp] at h
          refine ih _ st' h ?_ ?_ ?_
          · dsimp only
            rw [h1]
            simp
          · dsimp only
            simp only [List.map_append, List.map_cons, List.map_nil]
            rw [List.nodup_append]
            refine ⟨h2, List.nodup_singleton _, ?_⟩
            intro a ha hb
            rcases List.mem_singleton.mp hb with h4
            subst h4
            exact (lookupA_eq_none dds (g.node dep).cache_key).mp hdup ha
          · dsimp only
            rw [h3]
            simp
      · by_cases hsc : (g.node otherId).scope ≠ (g.node dep).scope
        · rw [solveLoop_step_dup_conflict g binds fuel dep rest seen0 dds pg dd par
            otherId hdup hsc] at h
          exact absurd h (by simp)
        · push_neg at hsc
          rw [solveLoop_step_dup_skip g binds fuel dep rest seen0 dds pg dd par
            otherId hdup hsc] at h
          exact ih _ st' h h1 h2 h3

theorem validate_scopes_ok_iff (g : Graph) (scopes : List (Option Nat))
    (dd : List (Nat × List Nat)) :
    validate_scopes g scopes dd = .ok () ↔
      ∀ e ∈ dd, ∀ p ∈ e.2,
        scopeIdx scopes (g.node p).scope ≤ scopeIdx scopes (g.node e.1).scope := by
  rcases hf : dd.findSome? (fun e => e.2.findSome? fun p =>
      if scopeIdx scopes (g.node e.1).scope < scopeIdx scopes (g.node p).scope
      then some (e.1, p) else none) with _ | pr
  · constructor
    · intro _ e he p hp
      have houter := findSome?_eq_none_mem _ dd hf e he
      have hinner := findSome?_eq_none_mem _ e.2 houter p hp
      by_cases hcond : scopeIdx scopes (g.node e.1).scope < scopeIdx scopes (g.node p).scope
      · rw [if_pos hcond] at hinner
        cases hinner
      · exact Nat.le_of_not_lt hcond
    · intro _
      simp only [validate_scopes, hf]
  · obtain ⟨d, p⟩ := pr
    constructor
    · intro hc
      simp only [validate_scopes, hf] at hc
      exact absurd hc (by simp)
    · intro hall
      exfalso
      obtain ⟨e, he, hfe⟩ := List.exists_of_findSome?_eq_some hf
      obtain ⟨p', hp', hfp⟩ := List.exists_of_findSome?_eq_some hfe
      by_cases hcond : scopeIdx scopes (g.node e.1).scope < scopeIdx scopes (g.node p').scope
      · exact absurd hcond (Nat.not_lt.mpr (hall e he p' hp'))
      · rw [if_neg hcond] at hfp
        cases hfp

theorem validate_scopes_error_facts (g : Graph) (scopes : List (Option Nat))
    (dd : List (Nat × List Nat)) (d pr : Nat) (s1 s2 : Option Nat)
    (h : validate_scopes g scopes dd = .error (.scopeValidation d pr s1 s2)) :
    s1 = (g.node d).scope ∧ s2 = (g.node pr).scope ∧
      scopeIdx scopes (g.node d).scope < scopeIdx scopes (g.node pr).scope := by
  rcases hf : dd.findSome? (fun e => e.2.findSome? fun p =>
      if scopeIdx scopes (g.node e.1).scope < scopeIdx scopes (g.node p).scope
      then some (e.1, p) else none) with _ | pr'
  · simp only [validate_scopes, hf] at h
    exact absurd h (by simp)
  · obtain ⟨d', p'⟩ := pr'
    simp only [validate_scopes, hf, Except.error.injEq, SolveErr.scopeValidation.injEq] at h
    obtain ⟨hd, hp, hs1, hs2⟩ := h
    obtain ⟨e, he, hfe⟩ := List.exists_of_findSome?_eq_some hf
    obtain ⟨p'', hp'', hfp⟩ := List.exists_of_findSome?_eq_some hfe
    by_cases hcond : scopeIdx scopes (g.node e.1).scope < scopeIdx scopes (g.node p'').scope
    · rw [if_pos hcond] at hfp
      have h2 : (e.1, p'') = (d', p') := by injection hfp
      have h3 : e.1 = d' := congrArg Prod.fst h2
      have h4 : p'' = p' := congrArg Prod.snd h2
      refine ⟨?_, ?_, ?_⟩
      · rw [← hs1, hd]
      · rw [← hs2, hp]
      · rw [← hd, ← hp, ← h3, ← h4]
        exact hcond
    · rw [if_neg hcond] at hfp
      cases hfp

/-- C8: scope validation is a static check over the full dependency DAG and
the declared outer-to-inner ordering.  `validate_scopes` succeeds exactly
when every edge's dependency sits at a scope index less than or equal to its
dependent's; any violating DAG makes it fail with a scope-validation error
naming both nodes' scopes (the dependent's and the dependency's, in that
order); and every plan `solve` returns has already passed the check, so no
violating plan reaches execution. -/
theorem c8_scope_validation (g : Graph) (scopes : List (Option Nat)) :
    (∀ dd : List (Nat × List Nat),
      validate_scopes g scopes dd = .ok () ↔
        ∀ e ∈ dd, ∀ p ∈ e.2,
          scopeIdx scopes (g.node p).scope ≤ scopeIdx scopes (g.node e.1).scope) ∧
    (∀ (dd : List (Nat × List Nat)) (d pr : Nat) (s1 s2 : Option Nat),
      validate_scopes g scopes dd = .error (.scopeValidation d pr s1 s2) →
        s1 = (g.node d).scope ∧ s2 = (g.node pr).scope ∧
        scopeIdx scopes (g.node d).scope < scopeIdx scopes (g.node pr).scope) ∧
    (∀ dd : List (Nat × List Nat),
      (∃ e ∈ dd, ∃ p ∈ e.2,
        scopeIdx scopes (g.node e.1).scope < scopeIdx scopes (g.node p).scope) →
      ∃ d pr, validate_scopes g scopes dd =
        .error (.scopeValidation d pr (g.node d).scope (g.node pr).scope)) ∧
    (∀ (dep0 : Nat) (binds : List BindHook) (plan : SolvedDependant),
      solve g dep0 scopes binds = .ok plan →
        ∀ e ∈ plan.dag, ∀ p ∈ e.2,
          scopeIdx scopes (g.node p.dependency).scope ≤
            scopeIdx scopes (g.node e.1).scope) := by
  refine ⟨validate_scopes_ok_iff g scopes, ?_, ?_, ?_⟩
  · intro dd d pr s1 s2 h
    exact validate_scopes_error_facts g scopes dd d pr s1 s2 h
  · intro dd hviol
    rcases hv : validate_scopes g scopes dd with err | u
    · obtain ⟨a, b, s1, s2, hkind⟩ := validate_scopes_error_kind g scopes dd err hv
      subst hkind
      obtain ⟨hs1, hs2, _⟩ := validate_scopes_error_facts g scopes dd a b s1 s2 hv
      exact ⟨a, b, by subst hs1; subst hs2; rfl⟩
    · exfalso
      cases u
      obtain ⟨e, he, p, hp, hlt⟩ := hviol
      have := (validate_scopes_ok_iff g scopes dd).mp hv e he p hp
      exact absurd hlt (Nat.not_lt.mpr this)
  · intro dep0 binds plan hsolve e he p hp
    obtain ⟨st, ts, tasks, heap, tsAdds, so, root_task, h1, h2, h3, h4, h5, h6, hplan⟩ :=
      solve_ok_inversion g dep0 scopes binds plan hsolve
    obtain ⟨hi1, hi2, hi3⟩ := solveLoop_inv g binds (fuelBound g) _ st h1
      (by simp) (by simp) (by simp)
    have hdag : plan.dag = st.param_graph := by rw [hplan]
    rw [hdag] at he
    have hedge : (e.1, e.2.map (·.dependency)) ∈ st.dep_dag := by
      rw [hi3]
      exact List.mem_map.mpr ⟨e, he, rfl⟩
    have hpd : p.dependency ∈ e.2.map (·.dependency) := List.mem_map.mpr ⟨p, hp, rfl⟩
    exact (validate_scopes_ok_iff g scopes st.dep_dag).mp h6 _ hedge _ hpd

/-- C8 witness: the edge from node 1 (scope 0, index 0) to node 0 (innermost
scope, index 1) is a violation and produces the scope-validation error
naming both scopes; and in the solved `cgChain` every edge satisfies the
scope ordering. -/
theorem c8_scope_validation_witness :
    (∃ d pr, validate_scopes gC8v [some 0, none] [(1, [0])] =
      .error (.scopeValidation d pr (gC8v.node d).scope (gC8v.node pr).scope)) ∧
    scopeIdx [none] (cgChain.node 1).scope ≤ scopeIdx [none] (cgChain.node 0).scope :=
  ⟨(c8_scope_validation gC8v [some 0, none]).2.2.1 [(1, [0])]
      ⟨(1, [0]), by decide, 0, by decide, by decide⟩,
   (c8_scope_validation cgChain [none]).2.2.2 0 [] (planOf (solve cgChain 0 [none] []))
      rfl (0, [⟨some ⟨"a", .positionalOrKeyword, false⟩, 1⟩]) (by decide)
      ⟨some ⟨"a", .positionalOrKeyword, false⟩, 1⟩ (by decide)⟩

theorem get_params_ok_val (g : Graph) (binds : List BindHook)
    (parents : List (Nat × Nat)) (depId : Nat) (params : List DependencyParameter)
    (h : get_params g binds parents depId = .ok params) :
    params = (g.node depId).deps.map (bindParam binds) := by
  rcases hv : firstWiringViolation g ((g.node depId).deps.map (bindParam binds)) with _ | pp
  · simp only [get_params, hv] at h
    injection h with h'
    exact h'.symm
  · simp only [get_params, hv] at h
    exact absurd h (by simp)

theorem foldl_max_ge :
    ∀ (l : List Node) (a : Nat), a ≤ l.foldl (fun m n => max m n.deps.length) a := by
  intro l
  induction l with
  | nil => intro a; exact Nat.le_refl a
  | cons hd tl ih =>
    intro a
    rw [List.foldl_cons]
    exact Nat.le_trans (Nat.le_max_left a hd.deps.length) (ih _)

theorem deps_le_foldl_max :
    ∀ (l : List Node) (a : Nat) (n : Node), n ∈ l →
      n.deps.length ≤ l.foldl (fun m n => max m n.deps.length) a := by
  intro l
  induction l with
  | nil => intro a n hn; exact absurd hn (List.not_mem_nil n)
  | cons hd tl ih =>
    intro a n hn
    rw [List.foldl_cons]
    rcases List.mem_cons.mp hn with h | h
    · subst h
      exact Nat.le_trans (Nat.le_max_right a n.deps.length) (foldl_max_ge tl _)
    · exact ih _ n h

theorem deps_length_le_maxDeps (g : Graph) (i : Nat) :
    (g.node i).deps.length ≤ maxDeps g := by
  unfold Graph.node maxDeps
  by_cases h : i < g.nodes.length
  · have hmem : g.nodes.getD i default ∈ g.nodes := by
      rw [List.getD_eq_getElem?_getD, List.getElem?_eq_getElem h]
      exact List.getElem_mem h
    exact deps_le_foldl_max g.nodes 0 _ hmem
  · rw [List.getD_eq_default]
    · exact Nat.zero_le _
    · exact Nat.le_of_not_lt h

theorem cacheKey_mem_universe (g : Graph) (i : Nat) :
    (g.node i).cache_key ∈ keyUniverse g := by
  unfold Graph.node keyUniverse
  by_cases h : i < g.nodes.length
  · have hmem : g.nodes.getD i default ∈ g.nodes := by
      rw [List.getD_eq_getElem?_getD, List.getElem?_eq_getElem h]
      exact List.getElem_mem h
    exact Finset.mem_insert_of_mem
      (List.mem_toFinset.mpr (List.mem_map.mpr ⟨_, hmem, rfl⟩))
  · rw [List.getD_eq_default]
    · exact Finset.mem_insert_self _ _
    · exact Nat.le_of_not_lt h

theorem missingKeys_lt (g : Graph) (dds : List (Nat × Nat)) (k dep : Nat)
    (hk : k ∈ keyUniverse g) (hnot : k ∉ dds.map Prod.fst) :
    missingKeys g (dds ++ [(k, dep)]) < missingKeys g dds := by
  unfold missingKeys
  have hset : ((dds ++ [(k, dep)]).map Prod.fst).toFinset =
      insert k (dds.map Prod.fst).toFinset := by
    ext x
    simp only [List.mem_toFinset, List.map_append, List.mem_append, List.map_cons,
      List.map_nil, List.mem_singleton, Finset.mem_insert]
    tauto
  rw [hset]
  have hmem : k ∈ keyUniverse g \ (dds.map Prod.fst).toFinset :=
    Finset.mem_sdiff.mpr ⟨hk, by simpa using hnot⟩
  have herase : keyUniverse g \ insert k (dds.map Prod.fst).toFinset =
      (keyUniverse g \ (dds.map Prod.fst).toFinset).erase k := by
    ext x
    simp only [Finset.mem_sdiff, Finset.mem_erase, Finset.mem_insert]
    tauto
  rw [herase]
  exact Finset.card_erase_lt_of_mem hmem

theorem foldl_queue_len (seen1 : List Nat) :
    ∀ (params : List DependencyParameter) (rest : List Nat),
      (params.foldl
        (fun acc p => if p.dependency ∈ seen1 then acc else p.dependency :: acc)
        rest).length ≤ params.length + rest.length := by
  intro params
  induction params with
  | nil => intro rest; simp
  | cons p ps ih =>
    intro rest
    rw [List.foldl_cons]
    by_cases hm : p.dependency ∈ seen1
    · rw [if_pos hm]
      have := ih rest
      simp only [List.length_cons]
      omega
    · rw [if_neg hm]
      have := ih (p.dependency :: rest)
      simp only [List.length_cons] at this ⊢
      omega

theorem solveLoop_no_outOfFuel (g : Graph) (binds : List BindHook) :
    ∀ (fuel : Nat) (st : SolveState),
      st.q.length + missingKeys g st.dependants * (maxDeps g + 1) + 1 ≤ fuel →
      solveLoop g binds fuel st ≠ .error .outOfFuel := by
  intro fuel
  induction fuel with
  | zero => intro st h; exact absurd h (by omega)
  | succ fuel ih =>
    intro st hb
    obtain ⟨q, seen0, dds, pg, dd, par⟩ := st
    dsimp only at hb
    rcases q with _ | ⟨dep, rest⟩
    · simp [solveLoop]
    · rcases hdup : lookupA dds (g.node dep).cache_key with _ | otherId
      · rcases hgp : get_params g binds par dep with e | params
        · rw [solveLoop_step_fresh_error g binds fuel dep rest seen0 dds pg dd par e
            hdup hgp]
          rcases hv : firstWiringViolation g ((g.node dep).deps.map (bindParam binds))
              with _ | pp
          · simp only [get_params, hv] at hgp
            exact absurd hgp (by simp)
          · simp only [get_params, hv] at hgp
            have he : e = .wiring pp.name (get_path par (.node dep)) := by
              injection hgp with h'
              exact h'.symm
            subst he
            simp
        · rw [solveLoop_step_fresh_ok g binds fuel dep rest seen0 dds pg dd par params
            hdup hgp]
          apply ih
          dsimp only
          have hparams : params = (g.node dep).deps.map (bindParam binds) :=
            get_params_ok_val g binds par dep params hgp
          have hplen : params.length ≤ maxDeps g := by
            rw [hparams, List.length_map]
            exact deps_length_le_maxDeps g dep
          have hqlen := foldl_queue_len (insertSeen seen0 dep) params rest
          have hmiss : missingKeys g (dds ++ [((g.node dep).cache_key, dep)]) + 1 ≤
              missingKeys g dds := by
            have := missingKeys_lt g dds (g.node dep).cache_key dep
              (cacheKey_mem_universe g dep)
              ((lookupA_eq_none dds (g.node dep).cache_key).mp hdup)
            omega
          have hmul : (missingKeys g (dds ++ [((g.node dep).cache_key, dep)]) + 1)
              * (maxDeps g + 1) ≤ missingKeys g dds * (maxDeps g + 1) :=
            Nat.mul_le_mul_right _ hmiss
          rw [Nat.succ_mul] at hmul
          simp only [List.length_cons] at hb
          omega
      · by_cases hsc : (g.node otherId).scope ≠ (g.node dep).scope
        · rw [solveLoop_step_dup_conflict g binds fuel dep rest seen0 dds pg dd par
            otherId hdup hsc]
          simp
        · push_neg at hsc
          rw [solveLoop_step_dup_skip g binds fuel dep rest seen0 dds pg dd par
            otherId hdup hsc]
          apply ih
          dsimp only
          simp only [List.length_cons] at hb
          omega

theorem solve_no_outOfFuel (g : Graph) (dep0 : Nat) (scopes : List (Option Nat))
    (binds : List BindHook) : solve g dep0 scopes binds ≠ .error .outOfFuel := by
  have hloop : solveLoop g binds (fuelBound g)
      ⟨[applyRootBinds binds dep0], [], [], [], [], []⟩ ≠ .error .outOfFuel := by
    apply solveLoop_no_outOfFuel
    dsimp only
    have hmiss : missingKeys g [] ≤ (keyUniverse g).card := by
      unfold missingKeys
      simp
    have := Nat.mul_le_mul_right (maxDeps g + 1) hmiss
    unfold fuelBound
    simp only [List.length_cons, List.length_nil]
    omega
  simp only [solve]
  split
  · next e heq =>
    intro hc
    have he : e = .outOfFuel := by injection hc
    exact hloop (he ▸ heq)
  · next st heq =>
    split
    · next heq2 => exact absurd heq2 (staticOrderK_no_out _)
    · simp
    · next ts heq2 =>
      split
      · next e heq3 =>
        intro hc
        have he : e = .outOfFuel := by injection hc
        obtain (⟨k, hk⟩ | hk) := build_tasks_error_kind g _ _ _ _ _ _ _ e heq3
        · rw [he] at hk; cases hk
        · rw [he] at hk; cases hk
      · next tasks heap tsAdds heq3 =>
        split
        · next heq4 => exact absurd heq4 (staticOrderK_no_out _)
        · simp
        · next so heq4 =>
          split
          · simp
          · next root_task heq5 =>
            split
            · next e heq6 =>
              intro hc
              have he : e = .outOfFuel := by injection hc
              obtain ⟨a, b, s1, s2, hsv⟩ := validate_scopes_error_kind g scopes _ e heq6
              rw [he] at hsv; cases hsv
            · simp

theorem staticOrderK_perm (graph : List (Nat × List Nat)) (order : List Nat)
    (h : staticOrderK graph = .ok order) : order.Perm (mentionOrder graph) := by
  unfold staticOrderK at h
  have hp := kahnLoop_perm graph _ _ _ _ h
  simpa using hp

theorem mem_cpg_keys (g : Graph) (pg : List (Nat × List DependencyParameter)) (depId : Nat) :
    depId ∈ (computableParamGraph g pg).map Prod.fst ↔
      ∃ e ∈ pg, (g.node e.1).call.isSome ∧ e.1 = depId := by
  simp only [computableParamGraph, List.map_map, List.mem_map, Function.comp,
    List.mem_filter]
  constructor
  · rintro ⟨e, ⟨he, hc⟩, hfst⟩
    exact ⟨e, he, hc, hfst⟩
  · rintro ⟨e, he, hc, hfst⟩
    exact ⟨e, ⟨he, hc⟩, hfst⟩

theorem cpg_entry_of_mem (g : Graph) (pg : List (Nat × List DependencyParameter))
    (e : Nat × List DependencyParameter) (he : e ∈ pg)
    (hc : (g.node e.1).call.isSome) :
    (e.1, e.2.filter fun p => (g.node p.dependency).call.isSome) ∈
      computableParamGraph g pg :=
  List.mem_map.mpr ⟨e, List.mem_filter.mpr ⟨he, hc⟩, rfl⟩

theorem build_tasks_ok_facts (g : Graph) (dag : List (Nat × List DependencyParameter))
    (dependants : List (Nat × Nat))
    (hdds : ∀ kd ∈ dependants, (g.node kd.2).cache_key = kd.1) :
    ∀ (keys : List Nat) (task_id : Nat) (tasks0 : List (Nat × Task)) (heap0 : List Task)
      (tsa0 : List (Nat × List Nat)) (tasks : List (Nat × Task)) (heap : List Task)
      (tsa : List (Nat × List Nat)),
      build_tasks g dag dependants keys task_id tasks0 heap0 tsa0 = .ok (tasks, heap, tsa) →
      heap.map (·.cache_key) = heap0.map (·.cache_key) ++ keys ∧
      (∀ k ∈ keys, ∃ depId, lookupA dependants k = some depId ∧
        depId ∈ dag.map Prod.fst) ∧
      (∀ k : Nat, (lookupA tasks k).isSome ↔ (lookupA tasks0 k).isSome ∨ k ∈ keys) := by
  intro keys
  induction keys with
  | nil =>
    intro task_id tasks0 heap0 tsa0 tasks heap tsa h
    simp only [build_tasks, Except.ok.injEq, Prod.mk.injEq] at h
    obtain ⟨h1, h2, h3⟩ := h
    subst h1; subst h2
    refine ⟨by simp, by simp, fun k => by simp⟩
  | cons key rest ih =>
    intro task_id tasks0 heap0 tsa0 tasks heap tsa h
    rcases hd : lookupA dependants key with _ | depId
    · simp only [build_tasks, hd] at h
      exact absurd h (by simp)
    · rcases hg : lookupA dag depId with _ | params
      · simp only [build_tasks, hd, hg] at h
        exact absurd h (by simp)
      · rcases hs : splitParams g tasks0 params [] [] with e' | pk
        · simp only [build_tasks, hd, hg, hs] at h
          exact absurd h (by simp)
        · obtain ⟨positional, keyword⟩ := pk
          rcases hc : (g.node depId).call with _ | c
          · simp only [build_tasks, hd, hg, hs, hc] at h
            exact absurd h (by simp)
          · rcases ht : taskPreds g
                (setA tasks0 (g.node depId).cache_key
                  ⟨(g.node depId).scope, c, (g.node depId).use_cache,
                    (g.node depId).cache_key, depId, task_id, positional, keyword⟩)
                params with e' | preds
            · simp only [build_tasks, hd, hg, hs, hc, ht] at h
              exact absurd h (by simp)
            · simp only [build_tasks, hd, hg, hs, hc, ht] at h
              have hkey : (g.node depId).cache_key = key :=
                hdds (key, depId) (lookupA_some_mem dependants key depId hd)
              obtain ⟨ih1, ih2, ih3⟩ := ih _ _ _ _ _ _ _ h
              refine ⟨?_, ?_, ?_⟩
              · rw [ih1]
                simp [hkey]
              · intro k hk
                rcases List.mem_cons.mp hk with h1 | h1
                · exact ⟨depId, h1 ▸ hd, List.mem_map.mpr
                    ⟨(depId, params), lookupA_some_mem dag depId params hg, rfl⟩⟩
                · exact ih2 k h1
              · intro k
                rw [ih3 k, lookupA_setA]
                by_cases hkk : (g.node depId).cache_key = k
                · have hkeq : k = key := by rw [← hkk, hkey]
                  rw [if_pos hkk]
                  simp [hkeq]
                · have hkne : k ≠ key := by
                    intro hcon
                    exact hkk (by rw [hkey, hcon])
                  simp only [if_neg hkk, List.mem_cons]
                  constructor
                  · rintro (h1 | h1)
                    · exact .inl h1
                    · exact .inr (.inr h1)
                  · rintro (h1 | h1 | h1)
                    · exact .inl h1
                    · exact absurd h1 hkne
                    · exact .inr h1

theorem solveLoop_pg_mono (g : Graph) (binds : List BindHook) :
    ∀ (fuel : Nat) (st st' : SolveState), solveLoop g binds fuel st = .ok st' →
      ∃ suf, st'.param_graph = st.param_graph ++ suf := by
  intro fuel
  induction fuel with
  | zero => intro st st' h; exact absurd h (by simp [solveLoop])
  | succ fuel ih =>
    intro st st' h
    obtain ⟨q, seen0, dds, pg, dd, par⟩ := st
    rcases q with _ | ⟨dep, rest⟩
    · simp only [solveLoop] at h
      have hst : (⟨[], seen0, dds, pg, dd, par⟩ : SolveState) = st' := by injection h
      exact ⟨[], by rw [← hst]; simp⟩
    · rcases hdup : lookupA dds (g.node dep).cache_key with _ | otherId
      · rcases hgp : get_params g binds par dep with e | params
        · rw [solveLoop_step_fresh_error g binds fuel dep rest seen0 dds pg dd par e
            hdup hgp] at h
          exact absurd h (by simp)
        · rw [solveLoop_step_fresh_ok g binds fuel dep rest seen0 dds pg dd par params
            hdup hgp] at h
          obtain ⟨suf, hsuf⟩ := ih _ st' h
          exact ⟨(dep, params) :: suf, by rw [hsuf]; simp⟩
      · by_cases hsc : (g.node otherId).scope ≠ (g.node dep).scope
        · rw [solveLoop_step_dup_conflict g binds fuel dep rest seen0 dds pg dd par
            otherId hdup hsc] at h
          exact absurd h (by simp)
        · push_neg at hsc
          rw [solveLoop_step_dup_skip g binds fuel dep rest seen0 dds pg dd par
            otherId hdup hsc] at h
          obtain ⟨suf, hsuf⟩ := ih _ st' h
          exact ⟨suf, hsuf⟩

theorem solveLoop_root_first (g : Graph) (binds : List BindHook) (fuel d0 : Nat)
    (st' : SolveState)
    (h : solveLoop g binds (fuel + 1) ⟨[d0], [], [], [], [], []⟩ = .ok st') :
    ∃ params suf, st'.param_graph = (d0, params) :: suf := by
  have hdup : lookupA ([] : List (Nat × Nat)) (g.node d0).cache_key = none := rfl
  rcases hgp : get_params g binds [] d0 with e | params
  · rw [solveLoop_step_fresh_error g binds fuel d0 [] [] [] [] [] [] e hdup hgp] at h
    exact absurd h (by simp)
  · rw [solveLoop_step_fresh_ok g binds fuel d0 [] [] [] [] [] [] params hdup hgp] at h
    obtain ⟨suf, hsuf⟩ := solveLoop_pg_mono g binds fuel _ st' h
    exact ⟨params, suf, by simpa using hsuf⟩

/-- C2 counterexample: `cgWire`'s post-bind dependency relation is acyclic
(witnessed by a rank function), yet `solve` raises a `WiringError` and never
returns a plan, so no task table with one task per computable cache key is
produced. -/
theorem c2_counterexample :
    (∃ rank : Nat → Nat, ∀ i j : Nat, depEdge cgWire [] i j → rank j < rank i) ∧
    ∀ plan, solve cgWire 0 [none] [] ≠ .ok plan := by
  constructor
  · refine ⟨fun i => 1 - i, ?_⟩
    intro i j h
    rcases i with _ | ⟨_ | n⟩
    · simp [depEdge, cgWire, Graph.node, bindParam] at h
      subst h
      decide
    · simp [depEdge, cgWire, Graph.node] at h
    · have hdeps : (cgWire.node (n + 2)).deps = [] := rfl
      unfold depEdge at h
      rw [hdeps] at h
      simp at h
  · intro plan h
    rw [show solve cgWire 0 [none] [] = .error (.wiring "x" [PathElem.node 0]) from rfl] at h
    exact absurd h (by simp)

/-- C2 (amended): `solve` always terminates — the work-list traversal's fuel
bound provably suffices, so the fuel artifact is unreachable — and whenever
it returns a plan, the task table holds exactly one task per distinct cache
key among the discovered (registered) nodes whose call is present: the
table's key list has no duplicates, and a key occurs in it exactly when some
registered node carries that cache key and a call (call-less nodes yield no
task). -/
theorem c2_terminates_and_tasks (g : Graph) (dep0 : Nat) (scopes : List (Option Nat))
    (binds : List BindHook) :
    solve g dep0 scopes binds ≠ .error .outOfFuel ∧
    ∀ plan, solve g dep0 scopes binds = .ok plan →
      (plan.container_cache.tasks.map (·.cache_key)).Nodup ∧
      ∀ k : Nat, k ∈ plan.container_cache.tasks.map (·.cache_key) ↔
        ∃ e ∈ plan.dag, (g.node e.1).call.isSome ∧ (g.node e.1).cache_key = k := by
  refine ⟨solve_no_outOfFuel g dep0 scopes binds, ?_⟩
  intro plan hsolve
  obtain ⟨st, ts, tasks, heap, tsAdds, so, root_task, h1, h2, h3, h4, h5, h6, hplan⟩ :=
    solve_ok_inversion g dep0 scopes binds plan hsolve
  obtain ⟨hi1, hi2, hi3⟩ := solveLoop_inv g binds (fuelBound g) _ st h1
    (by simp) (by simp) (by simp)
  have hdds : ∀ kd ∈ st.dependants, (g.node kd.2).cache_key = kd.1 := by
    intro kd hkd
    rw [hi1] at hkd
    obtain ⟨e, he, hfe⟩ := List.mem_map.mp hkd
    rw [← hfe]
  obtain ⟨hb1, hb2, hb3⟩ := build_tasks_ok_facts g _ _ hdds ts 0 [] [] []
    tasks heap tsAdds h3
  have hperm := staticOrderK_perm _ _ h2
  have hheap : plan.container_cache.tasks.map (·.cache_key) = ts := by
    rw [hplan]
    dsimp only
    rw [hb1]
    simp
  have hdag : plan.dag = st.param_graph := by rw [hplan]
  rw [hheap, hdag]
  constructor
  · exact hperm.nodup_iff.mpr (mentionOrder_nodup _)
  · intro k
    constructor
    · intro hk
      obtain ⟨depId, hdk, hdagmem⟩ := hb2 k hk
      obtain ⟨e, he, hcall, hfst⟩ := (mem_cpg_keys g st.param_graph depId).mp hdagmem
      refine ⟨e, he, hcall, ?_⟩
      have hk2 := hdds (k, depId) (lookupA_some_mem _ _ _ hdk)
      rw [hfst]
      exact hk2
    · rintro ⟨e, he, hcall, hkey⟩
      rw [hperm.mem_iff, mem_mentionOrder]
      refine ⟨((g.node e.1).cache_key,
        (e.2.filter fun p => (g.node p.dependency).call.isSome).map
          fun p => (g.node p.dependency).cache_key), ?_, .inl hkey.symm⟩
      exact List.mem_map.mpr
        ⟨(e.1, e.2.filter fun p => (g.node p.dependency).call.isSome),
          cpg_entry_of_mem g _ e he hcall, rfl⟩

/-- C2 witness: the solved chain `cgChain` has a duplicate-free task-key
list, and key 1 is in the table exactly because registered node 1 carries a
call and cache key 1. -/
theorem c2_terminates_and_tasks_witness :
    ((planOf (solve cgChain 0 [none] [])).container_cache.tasks.map (·.cache_key)).Nodup ∧
    (1 ∈ (planOf (solve cgChain 0 [none] [])).container_cache.tasks.map (·.cache_key) ↔
      ∃ e ∈ (planOf (solve cgChain 0 [none] [])).dag,
        (cgChain.node e.1).call.isSome ∧ (cgChain.node e.1).cache_key = 1) :=
  ⟨((c2_terminates_and_tasks cgChain 0 [none] []).2 _ rfl).1,
   ((c2_terminates_and_tasks cgChain 0 [none] []).2 _ rfl).2 1⟩

/-- C10 counterexample: `cgMarkerRootWire`'s root has no call, yet `solve`
raises a documented solve-time error (`WiringError`), not a key-lookup
failure — the traversal aborts before the root-task lookup is reached. -/
theorem c10_counterexample :
    (cgMarkerRootWire.node 0).call = none ∧
    solve cgMarkerRootWire 0 [none] [] = .error (.wiring "x" [PathElem.node 0]) :=
  ⟨rfl, rfl⟩

/-- C10 (amended): when the stages before the root-task lookup succeed (the
traversal, the node-level sort, task compilation, and the task-level sort),
the (post-bind) root's call is absent exactly when the lookup of the root
task by the root's cache key fails; and in that case `solve` surfaces the
raw key-lookup error — not one of the documented solve-time errors — so no
plan is returned. -/
theorem c10_callless_root (g : Graph) (dep0 : Nat) (scopes : List (Option Nat))
    (binds : List BindHook) (st : SolveState) (topsort : List Nat)
    (tasks : List (Nat × Task)) (heap : List Task) (tsAdds : List (Nat × List Nat))
    (so : List Nat)
    (hloop : solveLoop g binds (fuelBound g)
      ⟨[applyRootBinds binds dep0], [], [], [], [], []⟩ = .ok st)
    (hsort : staticOrderK (nodeSorterGraph g (computableParamGraph g st.param_graph))
      = .ok topsort)
    (hbuild : build_tasks g (computableParamGraph g st.param_graph) st.dependants topsort
      0 [] [] [] = .ok (tasks, heap, tsAdds))
    (hsort2 : staticOrderK tsAdds = .ok so) :
    ((g.node (applyRootBinds binds dep0)).call = none ↔
      lookupA tasks (g.node (applyRootBinds binds dep0)).cache_key = none) ∧
    ((g.node (applyRootBinds binds dep0)).call = none →
      solve g dep0 scopes binds =
        .error (.keyError (g.node (applyRootBinds binds dep0)).cache_key)) := by
  have hloop' : solveLoop g binds
      (((keyUniverse g).card * (maxDeps g + 1) + 1) + 1)
      ⟨[applyRootBinds binds dep0], [], [], [], [], []⟩ = .ok st := hloop
  obtain ⟨params0, suf, hpg⟩ := solveLoop_root_first g binds _ _ _ hloop'
  obtain ⟨hi1, hi2, hi3⟩ := solveLoop_inv g binds (fuelBound g) _ st hloop
    (by simp) (by simp) (by simp)
  have hdds : ∀ kd ∈ st.dependants, (g.node kd.2).cache_key = kd.1 := by
    intro kd hkd
    rw [hi1] at hkd
    obtain ⟨e, he, hfe⟩ := List.mem_map.mp hkd
    rw [← hfe]
  have hroot : lookupA st.dependants (g.node (applyRootBinds binds dep0)).cache_key
      = some (applyRootBinds binds dep0) := by
    rw [hi1, hpg]
    simp [lookupA]
  obtain ⟨hb1, hb2, hb3⟩ := build_tasks_ok_facts g _ _ hdds topsort 0 [] [] []
    tasks heap tsAdds hbuild
  have hperm := staticOrderK_perm _ _ hsort
  have hiff : (g.node (applyRootBinds binds dep0)).call = none ↔
      lookupA tasks (g.node (applyRootBinds binds dep0)).cache_key = none := by
    constructor
    · intro hcallnone
      rcases hl : lookupA tasks (g.node (applyRootBinds binds dep0)).cache_key with _ | v
      · rfl
      · exfalso
        have hsome : (lookupA tasks (g.node (applyRootBinds binds dep0)).cache_key).isSome
            := by rw [hl]; rfl
        rw [hb3] at hsome
        rcases hsome with hsm | hsm
        · simp [lookupA] at hsm
        · obtain ⟨depId, hdk, hdagmem⟩ := hb2 _ hsm
          have hdep : depId = applyRootBinds binds dep0 := by
            rw [hroot] at hdk
            injection hdk with h'
            exact h'.symm
          obtain ⟨e, he, hcall, hfst⟩ := (mem_cpg_keys g st.param_graph depId).mp hdagmem
          rw [hfst, hdep, hcallnone] at hcall
          cases hcall
    · intro hlnone
      by_contra hcall
      have hcs : (g.node (applyRootBinds binds dep0)).call.isSome :=
        Option.isSome_iff_ne_none.mpr hcall
      have hkmem : (g.node (applyRootBinds binds dep0)).cache_key ∈ topsort := by
        rw [hperm.mem_iff, mem_mentionOrder]
        refine ⟨((g.node (applyRootBinds binds dep0)).cache_key,
          (params0.filter fun p => (g.node p.dependency).call.isSome).map
            fun p => (g.node p.dependency).cache_key), ?_, .inl rfl⟩
        refine List.mem_map.mpr
          ⟨(applyRootBinds binds dep0,
            params0.filter fun p => (g.node p.dependency).call.isSome), ?_, rfl⟩
        exact cpg_entry_of_mem g _ (applyRootBinds binds dep0, params0)
          (by rw [hpg]; exact List.mem_cons_self _ _) hcs
      have hsome := (hb3 _).mpr (.inr hkmem)
      rw [hlnone] at hsome
      cases hsome
  refine ⟨hiff, ?_⟩
  intro hcallnone
  have hlnone := hiff.mp hcallnone
  simp only [solve, hloop, hsort, hbuild, hsort2, hlnone]

/-- C10 witness: the call-less, dependency-free root of `cgMarkerRoot`
passes every stage up to the lookup, which fails and surfaces
`KeyError 0`. -/
theorem c10_callless_root_witness :
    lookupA ([] : List (Nat × Task)) (cgMarkerRoot.node 0).cache_key = none ∧
    solve cgMarkerRoot 0 [none] [] = .error (.keyError 0) := by
  have h := c10_callless_root cgMarkerRoot 0 [none] []
    ⟨[], [0], [(0, 0)], [(0, [])], [(0, [])], []⟩ [] [] [] [] [] rfl rfl rfl rfl
  exact ⟨h.1.mp rfl, h.2 rfl⟩

end DI
